import Mathlib

/-!
Shallow embedding of `scripts/video/faststart_mp4.py` and
`scripts/video/audit_mp4_keyframes.py`.

Buffers (`bytes` / `bytearray`) are modelled as `List Nat` of byte values;
`int.from_bytes(b, "big")` is a big-endian fold, `int.to_bytes(w, "big")` is
modelled by `natToBE`, failing (Python `OverflowError`) outside `[0, 256^w)`.
Python slices `buf[i:j]` are `slice buf i j`; slice assignment of an
equal-length chunk is `writeBytes`.  In-place mutation of the `moov`
bytearray is modelled by threading the buffer through `Except`, whose
`error` payload is the buffer state at the moment an exception escapes.

The Python generator `iter_boxes` terminates because each step advances the
cursor by at least 8 bytes; it is modelled by structural recursion on the
fuel `e - i`, which dominates the number of iterations.  Likewise the
recursion of `adjust_chunk_offsets` strictly shrinks the walked region by at
least 8 bytes per level, so a depth budget of `moov.length + 1` never runs
out; `adjStep` carries that budget as fuel.  The source reads box headers
lazily from the mutating bytearray, but every patch it performs stays inside
the extent of the box being processed, strictly before the next header read,
so the eager reading order used here agrees with the source on every input.
-/

set_option maxRecDepth 10000

namespace MP4

/-- Byte at position `p` of a buffer (out of range reads never occur on the
paths we verify; the default is 0). -/
def byteAt (buf : List Nat) (p : Nat) : Nat := buf.getD p 0

/-- Python slice `buf[i:j]` (for `i ≤ j`; clamps at the end of the buffer). -/
def slice (buf : List Nat) (i j : Nat) : List Nat := (buf.drop i).take (j - i)

/-- `_u32`: `int.from_bytes(b, "big", signed=False)` (the byte width comes
from the slice that is passed in). -/
def _u32 (b : List Nat) : Nat := b.foldl (fun a x => a * 256 + x) 0

/-- `_u64`: same big-endian fold as `_u32` in the source. -/
def _u64 (b : List Nat) : Nat := b.foldl (fun a x => a * 256 + x) 0

/-- Big-endian encoding of `v` in `w` bytes (the value written by
`int.to_bytes(w, "big")` when it does not raise). -/
def natToBE : Nat → Nat → List Nat
  | 0, _ => []
  | w + 1, v => natToBE w (v / 256) ++ [v % 256]

/-- `int(v).to_bytes(w, "big", signed=False)`: `none` models the
`OverflowError` raised when `v < 0` or `v ≥ 256^w`. -/
def pBytes (w : Nat) (v : Int) : Option (List Nat) :=
  if 0 ≤ v ∧ v < (256 : Int) ^ w then some (natToBE w v.toNat) else none

/-- `_p32` of the source. -/
def _p32 (v : Int) : Option (List Nat) := pBytes 4 v

/-- `_p64` of the source. -/
def _p64 (v : Int) : Option (List Nat) := pBytes 8 v

/-- Slice assignment `buf[off : off + bs.length] = bs`. -/
def writeBytes (buf : List Nat) (off : Nat) (bs : List Nat) : List Nat :=
  buf.take off ++ bs ++ buf.drop (off + bs.length)

/-- `bytes.decode("ascii", errors="replace")`: ASCII bytes decode to
themselves, anything else to U+FFFD (65533). -/
def decodeTag (bs : List Nat) : List Nat := bs.map (fun b => if b < 128 then b else 65533)

/-- ASCII code points of "moov". -/
def moovTag : List Nat := [109, 111, 111, 118]

/-- ASCII code points of "trak". -/
def trakTag : List Nat := [116, 114, 97, 107]

/-- ASCII code points of "mdia". -/
def mdiaTag : List Nat := [109, 100, 105, 97]

/-- ASCII code points of "minf". -/
def minfTag : List Nat := [109, 105, 110, 102]

/-- ASCII code points of "stbl". -/
def stblTag : List Nat := [115, 116, 98, 108]

/-- ASCII code points of "edts". -/
def edtsTag : List Nat := [101, 100, 116, 115]

/-- ASCII code points of "dinf". -/
def dinfTag : List Nat := [100, 105, 110, 102]

/-- ASCII code points of "udta". -/
def udtaTag : List Nat := [117, 100, 116, 97]

/-- ASCII code points of "meta". -/
def metaTag : List Nat := [109, 101, 116, 97]

/-- ASCII code points of "ilst". -/
def ilstTag : List Nat := [105, 108, 115, 116]

/-- ASCII code points of "stco". -/
def stcoTag : List Nat := [115, 116, 99, 111]

/-- ASCII code points of "co64". -/
def co64Tag : List Nat := [99, 111, 54, 52]

/-- ASCII code points of "mdat". -/
def mdatTag : List Nat := [109, 100, 97, 116]

/-- ASCII code points of "ftyp". -/
def ftypTag : List Nat := [102, 116, 121, 112]

/-- ASCII code points of "hdlr". -/
def hdlrTag : List Nat := [104, 100, 108, 114]

/-- ASCII code points of "mdhd". -/
def mdhdTag : List Nat := [109, 100, 104, 100]

/-- ASCII code points of "vide". -/
def videTag : List Nat := [118, 105, 100, 101]

/-- The `ContainerBoxes` set of `faststart_mp4.py`. -/
def ContainerBoxes : List (List Nat) :=
  [moovTag, trakTag, mdiaTag, minfTag, stblTag, edtsTag, dinfTag, udtaTag, metaTag, ilstTag]

/-- One `(type, box_start, box_size, header_size)` tuple yielded by
`iter_boxes`. -/
structure BoxInfo where
  typ : List Nat
  start : Nat
  size : Nat
  header : Nat
deriving DecidableEq, Repr

/-- The loop body of `iter_boxes`, with an explicit fuel that dominates the
iteration count (each iteration advances the cursor by `size ≥ 8`). -/
def iterBoxesF (buf : List Nat) : Nat → Nat → Nat → List BoxInfo
  | 0, _, _ => []
  | fuel + 1, i, e =>
    if i + 8 ≤ e then
      let size32 := _u32 (slice buf i (i + 4))
      let typ := decodeTag (slice buf (i + 4) (i + 8))
      if size32 = 1 then
        if e < i + 16 then []
        else
          let size := _u64 (slice buf (i + 8) (i + 16))
          if size < 16 then []
          else if e < i + size then []
          else ⟨typ, i, size, 16⟩ :: iterBoxesF buf fuel (i + size) e
      else
        let size := if size32 = 0 then e - i else size32
        if size < 8 then []
        else if e < i + size then []
        else ⟨typ, i, size, 8⟩ :: iterBoxesF buf fuel (i + size) e
    else []

/-- `iter_boxes(buf, start, end)`: the list of sibling boxes of the region
`[i, e)` (the generator, fully forced). -/
def iter_boxes (buf : List Nat) (i e : Nat) : List BoxInfo :=
  iterBoxesF buf (e - i) i e

/-- `find_top_level_atoms(buf)[tag]`: the Python dict maps each type to the
last box of that type (later assignments overwrite earlier ones). -/
def find_top_level_atoms (buf : List Nat) (tag : List Nat) : Option (Nat × Nat × Nat) :=
  (iter_boxes buf 0 buf.length).foldl
    (fun acc b => if b.typ = tag then some (b.start, b.size, b.header) else acc) none

/-- The entry-patching loop of `adjust_chunk_offsets` (`for i in
range(entry_count)` over either `stco` width-4 or `co64` width-8 entries):
read the big-endian entry, re-encode `old + delta` in place; an encoding
failure models the escaping `OverflowError`, carrying the buffer as already
mutated by the earlier iterations. -/
def patchLoop (w : Nat) (delta : Int) : List Nat → Nat → Nat → Except (List Nat) (List Nat)
  | buf, _, 0 => .ok buf
  | buf, off, n + 1 =>
    match pBytes w ((_u32 (slice buf off (off + w)) : Int) + delta) with
    | none => .error buf
    | some bs => patchLoop w delta (writeBytes buf off bs) (off + w) n

/-- One iteration of `recurse` in `adjust_chunk_offsets`, for a single box
`b`: containers (with the 4-byte `meta` rule) recurse over their children at
one less depth budget, `stco`/`co64` leaves patch their table if it fits,
anything else is inert.  The fuel only bounds nesting depth; it is
unreachable from the top-level call (each level shrinks the region by at
least 8 bytes). -/
def adjStep (delta : Int) : Nat → List Nat → BoxInfo → Except (List Nat) (List Nat)
  | 0, buf, _ => .ok buf
  | fuel + 1, buf, b =>
    let ds := b.start + b.header
    let de := b.start + b.size
    if b.typ ∈ ContainerBoxes then
      if b.typ = metaTag then
        if ds + 4 ≤ de then
          (iter_boxes buf (ds + 4) de).foldl
            (fun st c => match st with
              | .error x => .error x
              | .ok bf => adjStep delta fuel bf c) (.ok buf)
        else .ok buf
      else
        (iter_boxes buf ds de).foldl
          (fun st c => match st with
            | .error x => .error x
            | .ok bf => adjStep delta fuel bf c) (.ok buf)
    else if b.typ = stcoTag then
      if de < ds + 8 then .ok buf
      else
        let ec := _u32 (slice buf (ds + 4) (ds + 8))
        if de < ds + 8 + ec * 4 then .ok buf
        else patchLoop 4 delta buf (ds + 8) ec
    else if b.typ = co64Tag then
      if de < ds + 8 then .ok buf
      else
        let ec := _u32 (slice buf (ds + 4) (ds + 8))
        if de < ds + 8 + ec * 8 then .ok buf
        else patchLoop 8 delta buf (ds + 8) ec
    else .ok buf

/-- The `for` loop of `recurse` over a list of sibling boxes, threading the
mutated buffer; an escaping exception aborts the remaining iterations. -/
def adjSeq (delta : Int) (fuel : Nat) (buf : List Nat) (boxes : List BoxInfo) :
    Except (List Nat) (List Nat) :=
  boxes.foldl
    (fun st c => match st with
      | .error x => .error x
      | .ok bf => adjStep delta fuel bf c) (.ok buf)

/-- `adjust_chunk_offsets(moov, delta)`: `recurse(0, len(moov), "moov")`. -/
def adjust_chunk_offsets (moov : List Nat) (delta : Int) : Except (List Nat) (List Nat) :=
  adjSeq delta (moov.length + 1) moov (iter_boxes moov 0 moov.length)

/-- A chunk-offset table discovered by the traversal: entries of `width`
bytes each start at `tableStart`. -/
structure ChunkTable where
  tableStart : Nat
  width : Nat
  count : Nat
deriving DecidableEq, Repr

/-- Read-only mirror of `adjStep` over the unmutated buffer: the first
component lists the chunk-offset tables the traversal patches under box `b`,
the second lists the extents of `stco`/`co64` boxes it defensively skips
(table header or declared table extent not within the box bounds). -/
def specStep (buf : List Nat) : Nat → BoxInfo → List ChunkTable × List (Nat × Nat)
  | 0, _ => ([], [])
  | fuel + 1, b =>
    let ds := b.start + b.header
    let de := b.start + b.size
    if b.typ ∈ ContainerBoxes then
      if b.typ = metaTag then
        if ds + 4 ≤ de then
          (((iter_boxes buf (ds + 4) de).map (fun c => (specStep buf fuel c).1)).flatten,
           ((iter_boxes buf (ds + 4) de).map (fun c => (specStep buf fuel c).2)).flatten)
        else ([], [])
      else
        (((iter_boxes buf ds de).map (fun c => (specStep buf fuel c).1)).flatten,
         ((iter_boxes buf ds de).map (fun c => (specStep buf fuel c).2)).flatten)
    else if b.typ = stcoTag then
      if de < ds + 8 then ([], [(b.start, de)])
      else
        let ec := _u32 (slice buf (ds + 4) (ds + 8))
        if de < ds + 8 + ec * 4 then ([], [(b.start, de)])
        else ([⟨ds + 8, 4, ec⟩], [])
    else if b.typ = co64Tag then
      if de < ds + 8 then ([], [(b.start, de)])
      else
        let ec := _u32 (slice buf (ds + 4) (ds + 8))
        if de < ds + 8 + ec * 8 then ([], [(b.start, de)])
        else ([⟨ds + 8, 8, ec⟩], [])
    else ([], [])

/-- Tables patched while processing a list of sibling boxes. -/
def tablesOf (buf : List Nat) (fuel : Nat) (boxes : List BoxInfo) : List ChunkTable :=
  (boxes.map (fun b => (specStep buf fuel b).1)).flatten

/-- Extents of `stco`/`co64` boxes defensively skipped while processing a
list of sibling boxes. -/
def skipsOf (buf : List Nat) (fuel : Nat) (boxes : List BoxInfo) : List (Nat × Nat) :=
  (boxes.map (fun b => (specStep buf fuel b).2)).flatten

/-- All chunk-offset tables `adjust_chunk_offsets` patches in `moov`. -/
def chunkTables (moov : List Nat) : List ChunkTable :=
  tablesOf moov (moov.length + 1) (iter_boxes moov 0 moov.length)

/-- All `stco`/`co64` extents `adjust_chunk_offsets` defensively skips. -/
def skippedTables (moov : List Nat) : List (Nat × Nat) :=
  skipsOf moov (moov.length + 1) (iter_boxes moov 0 moov.length)

/-- Sibling boxes of a walk are laid out left to right: each starts at or
after the running cursor, and the cursor moves past each box. -/
inductive Chained : Nat → List BoxInfo → Prop
  | nil (m : Nat) : Chained m []
  | cons (m : Nat) (b : BoxInfo) (rest : List BoxInfo) :
      m ≤ b.start → Chained (b.start + b.size) rest → Chained m (b :: rest)

/-- Induction statement for the offset rewriter at a fixed depth budget:
processing a chained, in-bounds list of sibling boxes (each small enough for
the budget) that succeeds returns a buffer of the same length in which the
bytes of every discovered chunk-offset table entry carry `+ delta`, every
byte outside those tables is unchanged, and in particular every defensively
skipped `stco`/`co64` extent is untouched. -/
def MainProp (delta : Int) (fuel : Nat) : Prop :=
  ∀ boxes m buf out,
    (∀ b ∈ boxes, 8 ≤ b.header ∧ b.header ≤ b.size ∧ b.start + b.size ≤ buf.length ∧
      b.size ≤ 8 * fuel) →
    Chained m boxes →
    adjSeq delta fuel buf boxes = .ok out →
    out.length = buf.length ∧
    (∀ p, (∀ t ∈ tablesOf buf fuel boxes,
        p < t.tableStart ∨ t.tableStart + t.width * t.count ≤ p) →
      byteAt out p = byteAt buf p) ∧
    (∀ t ∈ tablesOf buf fuel boxes, ∀ k, k < t.count →
      (_u32 (slice out (t.tableStart + t.width * k) (t.tableStart + t.width * k + t.width)) : Int)
        = (_u32 (slice buf (t.tableStart + t.width * k)
            (t.tableStart + t.width * k + t.width)) : Int) + delta) ∧
    (∀ s ∈ skipsOf buf fuel boxes, ∀ p, s.1 ≤ p → p < s.2 → byteAt out p = byteAt buf p)

/-- `moov_is_faststart(buf, moov_start, mdat_start)`. -/
def moov_is_faststart (buf : List Nat) (moov_start mdat_start : Int) : Bool :=
  decide (0 ≤ moov_start) && (decide (mdat_start < 0) || decide (moov_start < mdat_start))

/-- `atoms.get("mdat", (-1, -1, -1))[0]` of `process_file`. -/
def mdatStartOf (data : List Nat) : Int :=
  match find_top_level_atoms data mdatTag with
  | some t => (t.1 : Int)
  | none => -1

/-- Outcome of `process_file`: the bytes written to the `.faststart` output,
the silent "already faststart" return, or one of the raised errors (the
`RuntimeError`s of the source, plus the `OverflowError` that can escape
`adjust_chunk_offsets`). -/
inductive ProcResult where
  | wrote : List Nat → ProcResult
  | alreadyFastStart : ProcResult
  | missingAtoms : ProcResult
  | invalidFtyp : ProcResult
  | unexpectedLayout : ProcResult
  | overflowError : ProcResult
deriving DecidableEq, Repr

/-- `process_file(path)` on the in-memory bytes of the file. -/
def process_file (data : List Nat) : ProcResult :=
  match find_top_level_atoms data moovTag, find_top_level_atoms data ftypTag with
  | some (moov_start, moov_size, _), some (ftyp_start, ftyp_size, _) =>
    if moov_is_faststart data (moov_start : Int) (mdatStartOf data) then .alreadyFastStart
    else
      let insert_at := ftyp_start + ftyp_size
      if insert_at ≤ 0 ∨ data.length < insert_at then .invalidFtyp
      else if moov_start < insert_at then .unexpectedLayout
      else
        match adjust_chunk_offsets (slice data moov_start (moov_start + moov_size))
            (moov_size : Int) with
        | .error _ => .overflowError
        | .ok adjusted =>
          .wrote (slice data 0 insert_at ++ adjusted ++ slice data insert_at moov_start
                  ++ slice data (moov_start + moov_size) data.length)
  | _, _ => .missingAtoms

/-- The `for` loop of `walk` in `find_first`: scan the sibling boxes for the
first one bearing `want`; on the last path segment return its span, otherwise
descend (4 bytes further in for `meta`, failing if they are missing) — in
every branch the loop returns, so later `want`-siblings are never tried. -/
def ffScan (recurse : Nat → Nat → Option (Nat × Nat × Nat)) (want : List Nat) (last : Bool) :
    List BoxInfo → Option (Nat × Nat × Nat)
  | [] => none
  | b :: bs =>
    if b.typ ≠ want then ffScan recurse want last bs
    else if last then some (b.start, b.size, b.header)
    else if b.typ = metaTag then
      if b.start + b.header + 4 ≤ b.start + b.size then
        recurse (b.start + b.header + 4) (b.start + b.size)
      else none
    else recurse (b.start + b.header) (b.start + b.size)

/-- `walk(region_start, region_end, idx)` of `find_first`, with the path
suffix `path[idx:]` passed explicitly. -/
def ffWalk (buf : List Nat) : List (List Nat) → Nat → Nat → Option (Nat × Nat × Nat)
  | [], _, _ => none
  | want :: rest, rs, re =>
    ffScan (fun a c => ffWalk buf rest a c) want rest.isEmpty (iter_boxes buf rs re)

/-- `find_first(buf, path)`. -/
def find_first (buf : List Nat) (path : List (List Nat)) : Option (Nat × Nat × Nat) :=
  ffWalk buf path 0 buf.length

/-- `parse_mdhd(buf, start, size, header)`; `error` models the raised
`ValueError`.  Note the source checks only `version == 1`: every other
version byte falls through to the version-0 layout. -/
def parse_mdhd (buf : List Nat) (start size header : Nat) : Except String (Nat × Nat) :=
  let data := slice buf (start + header) (start + size)
  if data.length < 4 then .error "mdhd too small"
  else
    let version := data.getD 0 0
    if version = 1 then
      if data.length < 32 then .error "mdhd v1 too small"
      else .ok (_u32 (slice data 20 24), _u64 (slice data 24 32))
    else
      if data.length < 20 then .error "mdhd v0 too small"
      else .ok (_u32 (slice data 12 16), _u32 (slice data 16 20))

/-- `parse_hdlr_handler_type(buf, start, size, header)`; the empty list
models the `""` returned when fewer than 12 data bytes are present. -/
def parse_hdlr_handler_type (buf : List Nat) (start size header : Nat) : List Nat :=
  let data := slice buf (start + header) (start + size)
  if data.length < 12 then [] else decodeTag (slice data 8 12)

/-- The `for typ, start, size, header in iter_boxes(...)` loop of
`locate_video_trak` over `moov`'s children: non-`trak` boxes are skipped, a
`trak` without an `mdia`, without an `hdlr` under its first `mdia`, or whose
handler is not "vide" is skipped, and the first qualifying `trak`'s span is
returned. -/
def lvtLoop (buf : List Nat) : List BoxInfo → Option (Nat × Nat × Nat)
  | [] => none
  | b :: rest =>
    if b.typ ≠ trakTag then lvtLoop buf rest
    else
      match (iter_boxes buf (b.start + b.header) (b.start + b.size)).find?
          (fun x => x.typ = mdiaTag) with
      | none => lvtLoop buf rest
      | some md =>
        match (iter_boxes buf (md.start + md.header) (md.start + md.size)).find?
            (fun x => x.typ = hdlrTag) with
        | none => lvtLoop buf rest
        | some hd =>
          if parse_hdlr_handler_type buf hd.start hd.size hd.header = videTag then
            some (b.start, b.size, b.header)
          else lvtLoop buf rest

/-- `locate_video_trak(buf)`. -/
def locate_video_trak (buf : List Nat) : Option (Nat × Nat × Nat) :=
  match find_first buf [moovTag] with
  | none => none
  | some (ms, msz, mh) => lvtLoop buf (iter_boxes buf (ms + mh) (ms + msz))

/-- Decidable predicate: this box is a `trak` whose first `mdia`'s first
`hdlr` declares handler "vide" (the per-`trak` test performed by the loop
body of `locate_video_trak`). -/
def isVideTrak (buf : List Nat) (b : BoxInfo) : Bool :=
  if b.typ = trakTag then
    match (iter_boxes buf (b.start + b.header) (b.start + b.size)).find?
        (fun x => x.typ = mdiaTag) with
    | none => false
    | some md =>
      match (iter_boxes buf (md.start + md.header) (md.start + md.size)).find?
          (fun x => x.typ = hdlrTag) with
      | none => false
      | some hd => parse_hdlr_handler_type buf hd.start hd.size hd.header = videTag
  else false

/-- Concrete `moov` buffer: a 32-byte `moov` holding one `stco` with two
entries 40 and 100. -/
def demo1 : List Nat :=
  [0,0,0,32, 109,111,111,118,
   0,0,0,24, 115,116,99,111,
   0,0,0,0,  0,0,0,2,
   0,0,0,40, 0,0,0,100]

/-- `demo1` after adding delta 7 to both `stco` entries. -/
def demo1out : List Nat :=
  [0,0,0,32, 109,111,111,118,
   0,0,0,24, 115,116,99,111,
   0,0,0,0,  0,0,0,2,
   0,0,0,47, 0,0,0,107]

/-- Concrete non-faststart file: `ftyp`(16) + `mdat`(16) + `moov`(28, one
`stco` entry 24 pointing into `mdat`). -/
def demo2 : List Nat :=
  [0,0,0,16, 102,116,121,112, 105,115,111,109, 0,0,0,1,
   0,0,0,16, 109,100,97,116, 1,2,3,4,5,6,7,8,
   0,0,0,28, 109,111,111,118, 0,0,0,20, 115,116,99,111, 0,0,0,0, 0,0,0,1, 0,0,0,24]

/-- `demo2`'s `moov` bytes after relocation by delta 28 (entry 24 → 52). -/
def demo2adj : List Nat :=
  [0,0,0,28, 109,111,111,118, 0,0,0,20, 115,116,99,111, 0,0,0,0, 0,0,0,1, 0,0,0,52]

/-- The rewritten output for `demo2`: `ftyp`, adjusted `moov`, `mdat`. -/
def demo2out : List Nat :=
  [0,0,0,16, 102,116,121,112, 105,115,111,109, 0,0,0,1]
  ++ demo2adj
  ++ [0,0,0,16, 109,100,97,116, 1,2,3,4,5,6,7,8]

/-- A 28-byte `mdhd` box whose version byte is 2 and whose version-0 fields
hold timescale 1000 and duration 5000. -/
def demo3 : List Nat :=
  [0,0,0,28, 109,100,104,100,
   2,0,0,0, 0,0,0,0, 0,0,0,0, 0,0,3,232, 0,0,19,136]

/-- A `moov` with two `trak`s: the first has handler "soun", the second
handler "vide" (each `trak` holds one `mdia` holding one `hdlr`). -/
def demo4 : List Nat :=
  [0,0,0,80, 109,111,111,118,
   0,0,0,36, 116,114,97,107,
   0,0,0,28, 109,100,105,97,
   0,0,0,20, 104,100,108,114, 0,0,0,0, 0,0,0,0, 115,111,117,110,
   0,0,0,36, 116,114,97,107,
   0,0,0,28, 109,100,105,97,
   0,0,0,20, 104,100,108,114, 0,0,0,0, 0,0,0,0, 118,105,100,101]

/-- An already-faststart file: `ftyp`(16) + `moov`(12) + `mdat`(16). -/
def demo5 : List Nat :=
  [0,0,0,16, 102,116,121,112, 1,2,3,4, 5,6,7,8,
   0,0,0,12, 109,111,111,118, 0,0,0,0,
   0,0,0,16, 109,100,97,116, 9,9,9,9,9,9,9,9]

/-- A 20-byte buffer whose second box declares size 200, overrunning the
region: the walk yields only the first box. -/
def demo6 : List Nat :=
  [0,0,0,12, 109,100,97,116, 0,0,0,0,
   0,0,0,200, 102,114,101,101]

/-- A 16-byte extended header declaring the 64-bit size `2^32 + 24`. -/
def demo7 : List Nat :=
  [0,0,0,1, 109,100,97,116, 0,0,0,1, 0,0,0,24]

/-- Two sibling `moov` boxes: the first (12 bytes) contains no `trak`, the
second (20 bytes) contains one. -/
def demo8 : List Nat :=
  [0,0,0,12, 109,111,111,118, 0,0,0,0,
   0,0,0,20, 109,111,111,118, 0,0,0,12, 116,114,97,107, 0,0,0,0]

/-- A file with two top-level `moov` boxes: `ftyp`(16) + `moov`(12) +
`mdat`(16) + `moov`(28, one `stco` entry 24). -/
def demo9 : List Nat :=
  [0,0,0,16, 102,116,121,112, 105,115,111,109, 0,0,0,1,
   0,0,0,12, 109,111,111,118, 7,7,7,7,
   0,0,0,16, 109,100,97,116, 1,2,3,4,5,6,7,8,
   0,0,0,28, 109,111,111,118, 0,0,0,20, 115,116,99,111, 0,0,0,0, 0,0,0,1, 0,0,0,24]

/-- The later `moov` of `demo9` after relocation by its size 28. -/
def demo9adj : List Nat :=
  [0,0,0,28, 109,111,111,118, 0,0,0,20, 115,116,99,111, 0,0,0,0, 0,0,0,1, 0,0,0,52]

/-- The rewritten output for `demo9`: the later `moov` is the one moved. -/
def demo9out : List Nat :=
  [0,0,0,16, 102,116,121,112, 105,115,111,109, 0,0,0,1]
  ++ demo9adj
  ++ [0,0,0,12, 109,111,111,118, 7,7,7,7,
      0,0,0,16, 109,100,97,116, 1,2,3,4,5,6,7,8]

/-- A `moov` whose `stco` holds entries 100 and `2^32 - 4`: adding delta 8
to the second entry overflows the 4-byte encoding. -/
def demo10 : List Nat :=
  [0,0,0,32, 109,111,111,118,
   0,0,0,24, 115,116,99,111,
   0,0,0,0,  0,0,0,2,
   0,0,0,100, 255,255,255,252]

/-- `demo10` at the moment the overflow escapes: the first entry is already
patched to 108, the second still holds its original bytes. -/
def demo10bad : List Nat :=
  [0,0,0,32, 109,111,111,118,
   0,0,0,24, 115,116,99,111,
   0,0,0,0,  0,0,0,2,
   0,0,0,108, 255,255,255,252]

/-! ### Byte-level helper lemmas -/

theorem byteAt_eq (buf : List Nat) (p : Nat) : byteAt buf p = (buf[p]?).getD 0 :=
  List.getD_eq_getElem?_getD buf p 0

theorem getElem?_eq_byteAt {xs ys : List Nat} (hl : xs.length = ys.length) {p : Nat}
    (h : byteAt xs p = byteAt ys p) : xs[p]? = ys[p]? := by
  rcases Nat.lt_or_ge p xs.length with hp | hp
  · rw [byteAt_eq, byteAt_eq] at h
    rw [List.getElem?_eq_getElem hp, List.getElem?_eq_getElem (hl ▸ hp)]
    rw [List.getElem?_eq_getElem hp, List.getElem?_eq_getElem (hl ▸ hp)] at h
    simpa using h
  · rw [List.getElem?_eq_none hp, List.getElem?_eq_none (hl ▸ hp)]

theorem drop_eq_of_agree {xs ys : List Nat} (hl : xs.length = ys.length) (m : Nat)
    (h : ∀ p, m ≤ p → byteAt xs p = byteAt ys p) : xs.drop m = ys.drop m := by
  apply List.ext_getElem?
  intro n
  rw [List.getElem?_drop, List.getElem?_drop]
  exact getElem?_eq_byteAt hl (h (m + n) (Nat.le_add_right m n))

theorem byteAt_congr_drop {xs ys : List Nat} {m : Nat} (h : xs.drop m = ys.drop m)
    {p : Nat} (hp : m ≤ p) : byteAt xs p = byteAt ys p := by
  obtain ⟨j, rfl⟩ := Nat.exists_eq_add_of_le hp
  rw [byteAt_eq, byteAt_eq, ← List.getElem?_drop, ← List.getElem?_drop, h]

theorem drop_mono_eq {xs ys : List Nat} {m : Nat} (h : xs.drop m = ys.drop m)
    {a : Nat} (ha : m ≤ a) : xs.drop a = ys.drop a := by
  obtain ⟨j, rfl⟩ := Nat.exists_eq_add_of_le ha
  have h2 := congrArg (List.drop j) h
  rw [List.drop_drop, List.drop_drop] at h2
  simpa [Nat.add_comm] using h2

theorem slice_congr_drop {xs ys : List Nat} {m : Nat} (h : xs.drop m = ys.drop m)
    {a b : Nat} (ha : m ≤ a) : slice xs a b = slice ys a b := by
  unfold slice
  rw [drop_mono_eq h ha]

theorem byteAt_congr_take {xs ys : List Nat} {m : Nat} (h : xs.take m = ys.take m)
    {p : Nat} (hp : p < m) : byteAt xs p = byteAt ys p := by
  rw [byteAt_eq, byteAt_eq]
  have h1 : (xs.take m)[p]? = (ys.take m)[p]? := by rw [h]
  rw [List.getElem?_take, List.getElem?_take, if_pos hp, if_pos hp] at h1
  rw [h1]

theorem slice_congr_take {xs ys : List Nat} {m : Nat} (h : xs.take m = ys.take m)
    {a b : Nat} (hb : b ≤ m) : slice xs a b = slice ys a b := by
  apply List.ext_getElem?
  intro n
  unfold slice
  rw [List.getElem?_take, List.getElem?_take, List.getElem?_drop, List.getElem?_drop]
  by_cases hn : n < b - a
  · rw [if_pos hn, if_pos hn]
    have h1 : (xs.take m)[a + n]? = (ys.take m)[a + n]? := by rw [h]
    rw [List.getElem?_take, List.getElem?_take, if_pos (by omega), if_pos (by omega)] at h1
    exact h1
  · rw [if_neg hn, if_neg hn]

theorem slice_eq_of_agree {xs ys : List Nat} (hl : xs.length = ys.length) {a b : Nat}
    (h : ∀ p, a ≤ p → p < b → byteAt xs p = byteAt ys p) : slice xs a b = slice ys a b := by
  apply List.ext_getElem?
  intro n
  unfold slice
  rw [List.getElem?_take, List.getElem?_take, List.getElem?_drop, List.getElem?_drop]
  by_cases hn : n < b - a
  · rw [if_pos hn, if_pos hn]
    exact getElem?_eq_byteAt hl (h (a + n) (by omega) (by omega))
  · rw [if_neg hn, if_neg hn]

theorem length_writeBytes {buf bs : List Nat} {off : Nat} (h : off + bs.length ≤ buf.length) :
    (writeBytes buf off bs).length = buf.length := by
  unfold writeBytes
  simp only [List.length_append, List.length_take, List.length_drop]
  omega

theorem take_writeBytes {buf bs : List Nat} {off : Nat} (h : off ≤ buf.length) :
    (writeBytes buf off bs).take off = buf.take off := by
  unfold writeBytes
  rw [List.append_assoc, List.take_left' (by simp [List.length_take]; omega)]

theorem drop_writeBytes {buf bs : List Nat} {off : Nat} (h : off + bs.length ≤ buf.length) :
    (writeBytes buf off bs).drop (off + bs.length) = buf.drop (off + bs.length) := by
  unfold writeBytes
  rw [List.drop_left' (by simp [List.length_append, List.length_take]; omega)]

theorem slice_writeBytes {buf bs : List Nat} {off : Nat} (h : off + bs.length ≤ buf.length) :
    slice (writeBytes buf off bs) off (off + bs.length) = bs := by
  unfold writeBytes slice
  rw [List.append_assoc, List.drop_left' (by simp [List.length_take]; omega)]
  rw [List.take_append_eq_append_take]
  simp [List.length_take]

/-! ### Big-endian encode/decode lemmas -/

theorem natToBE_length (w : Nat) : ∀ v, (natToBE w v).length = w := by
  induction w with
  | zero => intro v; rfl
  | succ w ih => intro v; simp [natToBE, ih]

theorem u32_append_singleton (xs : List Nat) (b : Nat) :
    _u32 (xs ++ [b]) = _u32 xs * 256 + b := by
  simp [_u32, List.foldl_append]

theorem u32_natToBE (w : Nat) : ∀ v, v < 256 ^ w → _u32 (natToBE w v) = v := by
  induction w with
  | zero =>
    intro v hv
    simp [natToBE, _u32]
    omega
  | succ w ih =>
    intro v hv
    rw [natToBE, u32_append_singleton, ih (v / 256) (by rw [pow_succ] at hv; omega)]
    omega

theorem pBytes_some {w : Nat} {v : Int} {bs : List Nat} (h : pBytes w v = some bs) :
    0 ≤ v ∧ v < (256 : Int) ^ w ∧ bs = natToBE w v.toNat := by
  unfold pBytes at h
  split at h
  · rename_i hc
    exact ⟨hc.1, hc.2, (Option.some_inj.mp h).symm⟩
  · exact absurd h (by simp)

theorem u32_pBytes {w : Nat} {v : Int} {bs : List Nat} (h : pBytes w v = some bs) :
    (_u32 bs : Int) = v := by
  obtain ⟨h0, hlt, rfl⟩ := pBytes_some h
  have hn : v.toNat < 256 ^ w := by
    have h2 : (v.toNat : Int) < ((256 : Nat) : Int) ^ w := by
      rw [Int.toNat_of_nonneg h0]
      exact_mod_cast hlt
    exact_mod_cast h2
  rw [u32_natToBE w v.toNat hn, Int.toNat_of_nonneg h0]

/-! ### Box-walker lemmas -/

theorem iterBoxesF_stop (buf : List Nat) (f i e : Nat) (h8 : ¬ i + 8 ≤ e) :
    iterBoxesF buf (f + 1) i e = [] := by
  simp only [iterBoxesF]
  rw [if_neg h8]

theorem iterBoxesF_ext_short (buf : List Nat) (f i e : Nat) (h8 : i + 8 ≤ e)
    (h1 : _u32 (slice buf i (i + 4)) = 1) (h16 : e < i + 16) :
    iterBoxesF buf (f + 1) i e = [] := by
  simp only [iterBoxesF]
  rw [if_pos h8, if_pos h1, if_pos h16]

theorem iterBoxesF_ext_small (buf : List Nat) (f i e : Nat) (h8 : i + 8 ≤ e)
    (h1 : _u32 (slice buf i (i + 4)) = 1) (h16 : ¬ e < i + 16)
    (hsz : _u64 (slice buf (i + 8) (i + 16)) < 16) :
    iterBoxesF buf (f + 1) i e = [] := by
  simp only [iterBoxesF]
  rw [if_pos h8, if_pos h1, if_neg h16, if_pos hsz]

theorem iterBoxesF_ext_over (buf : List Nat) (f i e : Nat) (h8 : i + 8 ≤ e)
    (h1 : _u32 (slice buf i (i + 4)) = 1) (h16 : ¬ e < i + 16)
    (hsz : ¬ _u64 (slice buf (i + 8) (i + 16)) < 16)
    (hfit : e < i + _u64 (slice buf (i + 8) (i + 16))) :
    iterBoxesF buf (f + 1) i e = [] := by
  simp only [iterBoxesF]
  rw [if_pos h8, if_pos h1, if_neg h16, if_neg hsz, if_pos hfit]

theorem iterBoxesF_ext_cons (buf : List Nat) (f i e : Nat) (h8 : i + 8 ≤ e)
    (h1 : _u32 (slice buf i (i + 4)) = 1) (h16 : ¬ e < i + 16)
    (hsz : ¬ _u64 (slice buf (i + 8) (i + 16)) < 16)
    (hfit : ¬ e < i + _u64 (slice buf (i + 8) (i + 16))) :
    iterBoxesF buf (f + 1) i e =
      ⟨decodeTag (slice buf (i + 4) (i + 8)), i, _u64 (slice buf (i + 8) (i + 16)), 16⟩ ::
        iterBoxesF buf f (i + _u64 (slice buf (i + 8) (i + 16))) e := by
  simp only [iterBoxesF]
  rw [if_pos h8, if_pos h1, if_neg h16, if_neg hsz, if_neg hfit]

theorem iterBoxesF_zero_cons (buf : List Nat) (f i e : Nat) (h8 : i + 8 ≤ e)
    (h1 : ¬ _u32 (slice buf i (i + 4)) = 1) (h0 : _u32 (slice buf i (i + 4)) = 0) :
    iterBoxesF buf (f + 1) i e =
      ⟨decodeTag (slice buf (i + 4) (i + 8)), i, e - i, 8⟩ ::
        iterBoxesF buf f (i + (e - i)) e := by
  simp only [iterBoxesF]
  rw [if_pos h8, if_neg h1, if_pos h0, if_neg (show ¬ e - i < 8 by omega),
    if_neg (show ¬ e < i + (e - i) by omega)]

theorem iterBoxesF_std_small (buf : List Nat) (f i e : Nat) (h8 : i + 8 ≤ e)
    (h1 : ¬ _u32 (slice buf i (i + 4)) = 1) (h0 : ¬ _u32 (slice buf i (i + 4)) = 0)
    (hsz : _u32 (slice buf i (i + 4)) < 8) :
    iterBoxesF buf (f + 1) i e = [] := by
  simp only [iterBoxesF]
  rw [if_pos h8, if_neg h1, if_neg h0, if_pos hsz]

theorem iterBoxesF_std_over (buf : List Nat) (f i e : Nat) (h8 : i + 8 ≤ e)
    (h1 : ¬ _u32 (slice buf i (i + 4)) = 1) (h0 : ¬ _u32 (slice buf i (i + 4)) = 0)
    (hsz : ¬ _u32 (slice buf i (i + 4)) < 8) (hfit : e < i + _u32 (slice buf i (i + 4))) :
    iterBoxesF buf (f + 1) i e = [] := by
  simp only [iterBoxesF]
  rw [if_pos h8, if_neg h1, if_neg h0, if_neg hsz, if_pos hfit]

theorem iterBoxesF_std_cons (buf : List Nat) (f i e : Nat) (h8 : i + 8 ≤ e)
    (h1 : ¬ _u32 (slice buf i (i + 4)) = 1) (h0 : ¬ _u32 (slice buf i (i + 4)) = 0)
    (hsz : ¬ _u32 (slice buf i (i + 4)) < 8) (hfit : ¬ e < i + _u32 (slice buf i (i + 4))) :
    iterBoxesF buf (f + 1) i e =
      ⟨decodeTag (slice buf (i + 4) (i + 8)), i, _u32 (slice buf i (i + 4)), 8⟩ ::
        iterBoxesF buf f (i + _u32 (slice buf i (i + 4))) e := by
  simp only [iterBoxesF]
  rw [if_pos h8, if_neg h1, if_neg h0, if_neg hsz, if_neg hfit]

theorem iterBoxesF_sound (buf : List Nat) :
    ∀ f i e b, b ∈ iterBoxesF buf f i e →
      i ≤ b.start ∧ 8 ≤ b.header ∧ b.header ≤ b.size ∧ b.start + b.size ≤ e := by
  intro f
  induction f with
  | zero => intro i e b hb; simp [iterBoxesF] at hb
  | succ f ih =>
    intro i e b hb
    by_cases h8 : i + 8 ≤ e
    · by_cases h1 : _u32 (slice buf i (i + 4)) = 1
      · by_cases h16 : e < i + 16
        · rw [iterBoxesF_ext_short buf f i e h8 h1 h16] at hb; simp at hb
        · by_cases hsz : _u64 (slice buf (i + 8) (i + 16)) < 16
          · rw [iterBoxesF_ext_small buf f i e h8 h1 h16 hsz] at hb; simp at hb
          · by_cases hfit : e < i + _u64 (slice buf (i + 8) (i + 16))
            · rw [iterBoxesF_ext_over buf f i e h8 h1 h16 hsz hfit] at hb; simp at hb
            · rw [iterBoxesF_ext_cons buf f i e h8 h1 h16 hsz hfit] at hb
              rcases List.mem_cons.mp hb with rfl | hb2
              · refine ⟨Nat.le_refl i, ?_, ?_, ?_⟩ <;> (simp only []; omega)
              · have h2 := ih _ e b hb2
                exact ⟨by omega, h2.2.1, h2.2.2.1, h2.2.2.2⟩
      · by_cases h0 : _u32 (slice buf i (i + 4)) = 0
        · rw [iterBoxesF_zero_cons buf f i e h8 h1 h0] at hb
          rcases List.mem_cons.mp hb with rfl | hb2
          · refine ⟨Nat.le_refl i, ?_, ?_, ?_⟩ <;> (simp only []; omega)
          · have h2 := ih _ e b hb2
            exact ⟨by omega, h2.2.1, h2.2.2.1, h2.2.2.2⟩
        · by_cases hsz : _u32 (slice buf i (i + 4)) < 8
          · rw [iterBoxesF_std_small buf f i e h8 h1 h0 hsz] at hb; simp at hb
          · by_cases hfit : e < i + _u32 (slice buf i (i + 4))
            · rw [iterBoxesF_std_over buf f i e h8 h1 h0 hsz hfit] at hb; simp at hb
            · rw [iterBoxesF_std_cons buf f i e h8 h1 h0 hsz hfit] at hb
              rcases List.mem_cons.mp hb with rfl | hb2
              · refine ⟨Nat.le_refl i, ?_, ?_, ?_⟩ <;> (simp only []; omega)
              · have h2 := ih _ e b hb2
                exact ⟨by omega, h2.2.1, h2.2.2.1, h2.2.2.2⟩
    · rw [iterBoxesF_stop buf f i e h8] at hb; simp at hb

theorem iterBoxesF_chained (buf : List Nat) :
    ∀ f i e, Chained i (iterBoxesF buf f i e) := by
  intro f
  induction f with
  | zero => intro i e; exact Chained.nil i
  | succ f ih =>
    intro i e
    by_cases h8 : i + 8 ≤ e
    · by_cases h1 : _u32 (slice buf i (i + 4)) = 1
      · by_cases h16 : e < i + 16
        · rw [iterBoxesF_ext_short buf f i e h8 h1 h16]; exact Chained.nil i
        · by_cases hsz : _u64 (slice buf (i + 8) (i + 16)) < 16
          · rw [iterBoxesF_ext_small buf f i e h8 h1 h16 hsz]; exact Chained.nil i
          · by_cases hfit : e < i + _u64 (slice buf (i + 8) (i + 16))
            · rw [iterBoxesF_ext_over buf f i e h8 h1 h16 hsz hfit]; exact Chained.nil i
            · rw [iterBoxesF_ext_cons buf f i e h8 h1 h16 hsz hfit]
              exact Chained.cons _ _ _ (Nat.le_refl i) (ih _ e)
      · by_cases h0 : _u32 (slice buf i (i + 4)) = 0
        · rw [iterBoxesF_zero_cons buf f i e h8 h1 h0]
          exact Chained.cons _ _ _ (Nat.le_refl i) (ih _ e)
        · by_cases hsz : _u32 (slice buf i (i + 4)) < 8
          · rw [iterBoxesF_std_small buf f i e h8 h1 h0 hsz]; exact Chained.nil i
          · by_cases hfit : e < i + _u32 (slice buf i (i + 4))
            · rw [iterBoxesF_std_over buf f i e h8 h1 h0 hsz hfit]; exact Chained.nil i
            · rw [iterBoxesF_std_cons buf f i e h8 h1 h0 hsz hfit]
              exact Chained.cons _ _ _ (Nat.le_refl i) (ih _ e)
    · rw [iterBoxesF_stop buf f i e h8]; exact Chained.nil i

theorem iterBoxesF_congr {buf1 buf2 : List Nat} {m : Nat} (hd : buf1.drop m = buf2.drop m) :
    ∀ f i e, m ≤ i → iterBoxesF buf1 f i e = iterBoxesF buf2 f i e := by
  intro f
  induction f with
  | zero => intro i e _; rfl
  | succ f ih =>
    intro i e hmi
    have e1 : slice buf1 i (i + 4) = slice buf2 i (i + 4) := slice_congr_drop hd hmi
    have e2 : slice buf1 (i + 4) (i + 8) = slice buf2 (i + 4) (i + 8) :=
      slice_congr_drop hd (by omega)
    have e3 : slice buf1 (i + 8) (i + 16) = slice buf2 (i + 8) (i + 16) :=
      slice_congr_drop hd (by omega)
    by_cases h8 : i + 8 ≤ e
    · by_cases h1 : _u32 (slice buf1 i (i + 4)) = 1
      · have h1b : _u32 (slice buf2 i (i + 4)) = 1 := by rw [← e1]; exact h1
        by_cases h16 : e < i + 16
        · rw [iterBoxesF_ext_short buf1 f i e h8 h1 h16,
            iterBoxesF_ext_short buf2 f i e h8 h1b h16]
        · by_cases hsz : _u64 (slice buf1 (i + 8) (i + 16)) < 16
          · rw [iterBoxesF_ext_small buf1 f i e h8 h1 h16 hsz,
              iterBoxesF_ext_small buf2 f i e h8 h1b h16 (by rw [← e3]; exact hsz)]
          · by_cases hfit : e < i + _u64 (slice buf1 (i + 8) (i + 16))
            · rw [iterBoxesF_ext_over buf1 f i e h8 h1 h16 hsz hfit,
                iterBoxesF_ext_over buf2 f i e h8 h1b h16 (by rw [← e3]; exact hsz)
                  (by rw [← e3]; exact hfit)]
            · rw [iterBoxesF_ext_cons buf1 f i e h8 h1 h16 hsz hfit,
                iterBoxesF_ext_cons buf2 f i e h8 h1b h16 (by rw [← e3]; exact hsz)
                  (by rw [← e3]; exact hfit), e2, e3, ih _ e (by omega)]
      · have h1b : ¬ _u32 (slice buf2 i (i + 4)) = 1 := by rw [← e1]; exact h1
        by_cases h0 : _u32 (slice buf1 i (i + 4)) = 0
        · rw [iterBoxesF_zero_cons buf1 f i e h8 h1 h0,
            iterBoxesF_zero_cons buf2 f i e h8 h1b (by rw [← e1]; exact h0), e2,
            ih _ e (by omega)]
        · have h0b : ¬ _u32 (slice buf2 i (i + 4)) = 0 := by rw [← e1]; exact h0
          by_cases hsz : _u32 (slice buf1 i (i + 4)) < 8
          · rw [iterBoxesF_std_small buf1 f i e h8 h1 h0 hsz,
              iterBoxesF_std_small buf2 f i e h8 h1b h0b (by rw [← e1]; exact hsz)]
          · have hszb : ¬ _u32 (slice buf2 i (i + 4)) < 8 := by rw [← e1]; exact hsz
            by_cases hfit : e < i + _u32 (slice buf1 i (i + 4))
            · rw [iterBoxesF_std_over buf1 f i e h8 h1 h0 hsz hfit,
                iterBoxesF_std_over buf2 f i e h8 h1b h0b hszb (by rw [← e1]; exact hfit)]
            · rw [iterBoxesF_std_cons buf1 f i e h8 h1 h0 hsz hfit,
                iterBoxesF_std_cons buf2 f i e h8 h1b h0b hszb (by rw [← e1]; exact hfit),
                e1, e2, ih _ e (by omega)]
    · rw [iterBoxesF_stop buf1 f i e h8, iterBoxesF_stop buf2 f i e h8]

theorem iterBoxesF_irrel (buf : List Nat) :
    ∀ f g i e, e - i ≤ f → e - i ≤ g → iterBoxesF buf f i e = iterBoxesF buf g i e := by
  intro f
  induction f with
  | zero =>
    intro g i e hf _
    cases g with
    | zero => rfl
    | succ g => rw [iterBoxesF_stop buf g i e (by omega)]; rfl
  | succ f ih =>
    intro g i e hf hg
    cases g with
    | zero =>
      rw [iterBoxesF_stop buf f i e (by omega)]
      rfl
    | succ g =>
      by_cases h8 : i + 8 ≤ e
      · by_cases h1 : _u32 (slice buf i (i + 4)) = 1
        · by_cases h16 : e < i + 16
          · rw [iterBoxesF_ext_short buf f i e h8 h1 h16,
              iterBoxesF_ext_short buf g i e h8 h1 h16]
          · by_cases hsz : _u64 (slice buf (i + 8) (i + 16)) < 16
            · rw [iterBoxesF_ext_small buf f i e h8 h1 h16 hsz,
                iterBoxesF_ext_small buf g i e h8 h1 h16 hsz]
            · by_cases hfit : e < i + _u64 (slice buf (i + 8) (i + 16))
              · rw [iterBoxesF_ext_over buf f i e h8 h1 h16 hsz hfit,
                  iterBoxesF_ext_over buf g i e h8 h1 h16 hsz hfit]
              · rw [iterBoxesF_ext_cons buf f i e h8 h1 h16 hsz hfit,
                  iterBoxesF_ext_cons buf g i e h8 h1 h16 hsz hfit,
                  ih g _ e (by omega) (by omega)]
        · by_cases h0 : _u32 (slice buf i (i + 4)) = 0
          · rw [iterBoxesF_zero_cons buf f i e h8 h1 h0,
              iterBoxesF_zero_cons buf g i e h8 h1 h0, ih g _ e (by omega) (by omega)]
          · by_cases hsz : _u32 (slice buf i (i + 4)) < 8
            · rw [iterBoxesF_std_small buf f i e h8 h1 h0 hsz,
                iterBoxesF_std_small buf g i e h8 h1 h0 hsz]
            · by_cases hfit : e < i + _u32 (slice buf i (i + 4))
              · rw [iterBoxesF_std_over buf f i e h8 h1 h0 hsz hfit,
                  iterBoxesF_std_over buf g i e h8 h1 h0 hsz hfit]
              · rw [iterBoxesF_std_cons buf f i e h8 h1 h0 hsz hfit,
                  iterBoxesF_std_cons buf g i e h8 h1 h0 hsz hfit,
                  ih g _ e (by omega) (by omega)]
      · rw [iterBoxesF_stop buf f i e h8, iterBoxesF_stop buf g i e h8]

theorem iter_boxes_sound {buf : List Nat} {i e : Nat} {b : BoxInfo}
    (hb : b ∈ iter_boxes buf i e) :
    i ≤ b.start ∧ 8 ≤ b.header ∧ b.header ≤ b.size ∧ b.start + b.size ≤ e :=
  iterBoxesF_sound buf (e - i) i e b hb

theorem iter_boxes_chained (buf : List Nat) (i e : Nat) : Chained i (iter_boxes buf i e) :=
  iterBoxesF_chained buf (e - i) i e

theorem iter_boxes_congr {buf1 buf2 : List Nat} {m : Nat} (hd : buf1.drop m = buf2.drop m)
    {i e : Nat} (hmi : m ≤ i) : iter_boxes buf1 i e = iter_boxes buf2 i e :=
  iterBoxesF_congr hd (e - i) i e hmi

theorem chained_le {m : Nat} {boxes : List BoxInfo} (hc : Chained m boxes) :
    ∀ b ∈ boxes, m ≤ b.start := by
  induction hc with
  | nil => intro b hb; simp at hb
  | cons m b rest hm _ ih =>
    intro c hc2
    rcases List.mem_cons.mp hc2 with rfl | hc3
    · exact hm
    · have := ih c hc3
      omega

/-! ### Patch-loop lemmas -/

theorem patchLoop_spec (w : Nat) (hw : 0 < w) (delta : Int) :
    ∀ n buf off out, off + w * n ≤ buf.length →
      patchLoop w delta buf off n = .ok out →
      out.length = buf.length ∧
      out.take off = buf.take off ∧
      out.drop (off + w * n) = buf.drop (off + w * n) ∧
      (∀ k, k < n →
        (_u32 (slice out (off + w * k) (off + w * k + w)) : Int)
          = (_u32 (slice buf (off + w * k) (off + w * k + w)) : Int) + delta) := by
  intro n
  induction n with
  | zero =>
    intro buf off out _ hrun
    simp only [patchLoop] at hrun
    cases hrun
    exact ⟨rfl, rfl, rfl, fun k hk => absurd hk (by omega)⟩
  | succ n ih =>
    intro buf off out hlen hrun
    rw [Nat.mul_succ] at hlen
    simp only [patchLoop] at hrun
    cases hp : pBytes w ((_u32 (slice buf off (off + w)) : Int) + delta) with
    | none => rw [hp] at hrun; exact absurd hrun (by simp)
    | some bs =>
      rw [hp] at hrun
      obtain ⟨h0, hlt, hbs⟩ := pBytes_some hp
      have hbsl : bs.length = w := by rw [hbs]; exact natToBE_length w _
      have hoffw : off + bs.length ≤ buf.length := by rw [hbsl]; omega
      have hwlen : (writeBytes buf off bs).length = buf.length := length_writeBytes hoffw
      obtain ⟨l1, t1, d1, e1⟩ := ih (writeBytes buf off bs) (off + w) out
        (by rw [hwlen]; omega) hrun
      have hdw : (writeBytes buf off bs).drop (off + w) = buf.drop (off + w) := by
        have h2 := drop_writeBytes hoffw
        rw [hbsl] at h2
        exact h2
      refine ⟨l1.trans hwlen, ?_, ?_, ?_⟩
      · calc out.take off = (out.take (off + w)).take off := by
              rw [List.take_take]; congr 1; omega
          _ = ((writeBytes buf off bs).take (off + w)).take off := by rw [t1]
          _ = (writeBytes buf off bs).take off := by rw [List.take_take]; congr 1; omega
          _ = buf.take off := take_writeBytes (by omega)
      · have harith : off + w + w * n = off + w * (n + 1) := by rw [Nat.mul_succ]; omega
        rw [harith] at d1
        rw [Nat.mul_succ]
        refine d1.trans ?_
        have h3 : (writeBytes buf off bs).drop (off + w * (n + 1))
            = buf.drop (off + w * (n + 1)) :=
          drop_mono_eq hdw (by rw [Nat.mul_succ]; omega)
        rw [Nat.mul_succ] at h3
        exact h3
      · intro k hk
        cases k with
        | zero =>
          simp only [Nat.mul_zero, Nat.add_zero]
          have hs1 : slice out off (off + w) = slice (writeBytes buf off bs) off (off + w) :=
            slice_congr_take t1 (Nat.le_refl _)
          have hs2 : slice (writeBytes buf off bs) off (off + w) = bs := by
            have h2 := slice_writeBytes hoffw
            rw [hbsl] at h2
            exact h2
          rw [hs1, hs2, u32_pBytes hp]
        | succ j =>
          have hj : j < n := by omega
          have harith2 : off + w + w * j = off + w * (j + 1) := by rw [Nat.mul_succ]; omega
          have e2 := e1 j hj
          rw [harith2] at e2
          have hwj : w ≤ w * (j + 1) := Nat.le_mul_of_pos_right w (by omega)
          have hsl : slice (writeBytes buf off bs) (off + w * (j + 1)) (off + w * (j + 1) + w)
              = slice buf (off + w * (j + 1)) (off + w * (j + 1) + w) :=
            slice_congr_drop hdw (by omega)
          rw [e2, hsl]

/-! ### Step equations for `adjStep` and `specStep` -/

theorem adjStep_container {delta : Int} {f : Nat} {buf : List Nat} {b : BoxInfo}
    (hc : b.typ ∈ ContainerBoxes) (hm : b.typ ≠ metaTag) :
    adjStep delta (f + 1) buf b =
      adjSeq delta f buf (iter_boxes buf (b.start + b.header) (b.start + b.size)) := by
  simp only [adjStep]
  rw [if_pos hc, if_neg hm]
  rfl

theorem adjStep_meta_room {delta : Int} {f : Nat} {buf : List Nat} {b : BoxInfo}
    (hm : b.typ = metaTag) (hr : b.start + b.header + 4 ≤ b.start + b.size) :
    adjStep delta (f + 1) buf b =
      adjSeq delta f buf (iter_boxes buf (b.start + b.header + 4) (b.start + b.size)) := by
  have hc : b.typ ∈ ContainerBoxes := by rw [hm]; simp [ContainerBoxes, metaTag]
  simp only [adjStep]
  rw [if_pos hc, if_pos hm, if_pos hr]
  rfl

theorem adjStep_meta_tight {delta : Int} {f : Nat} {buf : List Nat} {b : BoxInfo}
    (hm : b.typ = metaTag) (hr : ¬ b.start + b.header + 4 ≤ b.start + b.size) :
    adjStep delta (f + 1) buf b = .ok buf := by
  have hc : b.typ ∈ ContainerBoxes := by rw [hm]; simp [ContainerBoxes, metaTag]
  simp only [adjStep]
  rw [if_pos hc, if_pos hm, if_neg hr]

theorem adjStep_stco_small {delta : Int} {f : Nat} {buf : List Nat} {b : BoxInfo}
    (hc : b.typ ∉ ContainerBoxes) (hs : b.typ = stcoTag)
    (h1 : b.start + b.size < b.start + b.header + 8) :
    adjStep delta (f + 1) buf b = .ok buf := by
  simp only [adjStep]
  rw [if_neg hc, if_pos hs, if_pos h1]

theorem adjStep_stco_over {delta : Int} {f : Nat} {buf : List Nat} {b : BoxInfo}
    (hc : b.typ ∉ ContainerBoxes) (hs : b.typ = stcoTag)
    (h1 : ¬ b.start + b.size < b.start + b.header + 8)
    (h2 : b.start + b.size < b.start + b.header + 8 +
      _u32 (slice buf (b.start + b.header + 4) (b.start + b.header + 8)) * 4) :
    adjStep delta (f + 1) buf b = .ok buf := by
  simp only [adjStep]
  rw [if_neg hc, if_pos hs, if_neg h1, if_pos h2]

theorem adjStep_stco_ok {delta : Int} {f : Nat} {buf : List Nat} {b : BoxInfo}
    (hc : b.typ ∉ ContainerBoxes) (hs : b.typ = stcoTag)
    (h1 : ¬ b.start + b.size < b.start + b.header + 8)
    (h2 : ¬ b.start + b.size < b.start + b.header + 8 +
      _u32 (slice buf (b.start + b.header + 4) (b.start + b.header + 8)) * 4) :
    adjStep delta (f + 1) buf b =
      patchLoop 4 delta buf (b.start + b.header + 8)
        (_u32 (slice buf (b.start + b.header + 4) (b.start + b.header + 8))) := by
  simp only [adjStep]
  rw [if_neg hc, if_pos hs, if_neg h1, if_neg h2]

theorem adjStep_co64_small {delta : Int} {f : Nat} {buf : List Nat} {b : BoxInfo}
    (hc : b.typ ∉ ContainerBoxes) (hs : b.typ ≠ stcoTag) (hco : b.typ = co64Tag)
    (h1 : b.start + b.size < b.start + b.header + 8) :
    adjStep delta (f + 1) buf b = .ok buf := by
  simp only [adjStep]
  rw [if_neg hc, if_neg hs, if_pos hco, if_pos h1]

theorem adjStep_co64_over {delta : Int} {f : Nat} {buf : List Nat} {b : BoxInfo}
    (hc : b.typ ∉ ContainerBoxes) (hs : b.typ ≠ stcoTag) (hco : b.typ = co64Tag)
    (h1 : ¬ b.start + b.size < b.start + b.header + 8)
    (h2 : b.start + b.size < b.start + b.header + 8 +
      _u32 (slice buf (b.start + b.header + 4) (b.start + b.header + 8)) * 8) :
    adjStep delta (f + 1) buf b = .ok buf := by
  simp only [adjStep]
  rw [if_neg hc, if_neg hs, if_pos hco, if_neg h1, if_pos h2]

theorem adjStep_co64_ok {delta : Int} {f : Nat} {buf : List Nat} {b : BoxInfo}
    (hc : b.typ ∉ ContainerBoxes) (hs : b.typ ≠ stcoTag) (hco : b.typ = co64Tag)
    (h1 : ¬ b.start + b.size < b.start + b.header + 8)
    (h2 : ¬ b.start + b.size < b.start + b.header + 8 +
      _u32 (slice buf (b.start + b.header + 4) (b.start + b.header + 8)) * 8) :
    adjStep delta (f + 1) buf b =
      patchLoop 8 delta buf (b.start + b.header + 8)
        (_u32 (slice buf (b.start + b.header + 4) (b.start + b.header + 8))) := by
  simp only [adjStep]
  rw [if_neg hc, if_neg hs, if_pos hco, if_neg h1, if_neg h2]

theorem adjStep_leaf {delta : Int} {f : Nat} {buf : List Nat} {b : BoxInfo}
    (hc : b.typ ∉ ContainerBoxes) (hs : b.typ ≠ stcoTag) (hco : b.typ ≠ co64Tag) :
    adjStep delta (f + 1) buf b = .ok buf := by
  simp only [adjStep]
  rw [if_neg hc, if_neg hs, if_neg hco]

theorem specStep_container {buf : List Nat} {f : Nat} {b : BoxInfo}
    (hc : b.typ ∈ ContainerBoxes) (hm : b.typ ≠ metaTag) :
    specStep buf (f + 1) b =
      (tablesOf buf f (iter_boxes buf (b.start + b.header) (b.start + b.size)),
       skipsOf buf f (iter_boxes buf (b.start + b.header) (b.start + b.size))) := by
  simp only [specStep]
  rw [if_pos hc, if_neg hm]
  rfl

theorem specStep_meta_room {buf : List Nat} {f : Nat} {b : BoxInfo}
    (hm : b.typ = metaTag) (hr : b.start + b.header + 4 ≤ b.start + b.size) :
    specStep buf (f + 1) b =
      (tablesOf buf f (iter_boxes buf (b.start + b.header + 4) (b.start + b.size)),
       skipsOf buf f (iter_boxes buf (b.start + b.header + 4) (b.start + b.size))) := by
  have hc : b.typ ∈ ContainerBoxes := by rw [hm]; simp [ContainerBoxes, metaTag]
  simp only [specStep]
  rw [if_pos hc, if_pos hm, if_pos hr]
  rfl

theorem specStep_meta_tight {buf : List Nat} {f : Nat} {b : BoxInfo}
    (hm : b.typ = metaTag) (hr : ¬ b.start + b.header + 4 ≤ b.start + b.size) :
    specStep buf (f + 1) b = ([], []) := by
  have hc : b.typ ∈ ContainerBoxes := by rw [hm]; simp [ContainerBoxes, metaTag]
  simp only [specStep]
  rw [if_pos hc, if_pos hm, if_neg hr]

theorem specStep_stco_small {buf : List Nat} {f : Nat} {b : BoxInfo}
    (hc : b.typ ∉ ContainerBoxes) (hs : b.typ = stcoTag)
    (h1 : b.start + b.size < b.start + b.header + 8) :
    specStep buf (f + 1) b = ([], [(b.start, b.start + b.size)]) := by
  simp only [specStep]
  rw [if_neg hc, if_pos hs, if_pos h1]

theorem specStep_stco_over {buf : List Nat} {f : Nat} {b : BoxInfo}
    (hc : b.typ ∉ ContainerBoxes) (hs : b.typ = stcoTag)
    (h1 : ¬ b.start + b.size < b.start + b.header + 8)
    (h2 : b.start + b.size < b.start + b.header + 8 +
      _u32 (slice buf (b.start + b.header + 4) (b.start + b.header + 8)) * 4) :
    specStep buf (f + 1) b = ([], [(b.start, b.start + b.size)]) := by
  simp only [specStep]
  rw [if_neg hc, if_pos hs, if_neg h1, if_pos h2]

theorem specStep_stco_ok {buf : List Nat} {f : Nat} {b : BoxInfo}
    (hc : b.typ ∉ ContainerBoxes) (hs : b.typ = stcoTag)
    (h1 : ¬ b.start + b.size < b.start + b.header + 8)
    (h2 : ¬ b.start + b.size < b.start + b.header + 8 +
      _u32 (slice buf (b.start + b.header + 4) (b.start + b.header + 8)) * 4) :
    specStep buf (f + 1) b =
      ([⟨b.start + b.header + 8, 4,
          _u32 (slice buf (b.start + b.header + 4) (b.start + b.header + 8))⟩], []) := by
  simp only [specStep]
  rw [if_neg hc, if_pos hs, if_neg h1, if_neg h2]

theorem specStep_co64_small {buf : List Nat} {f : Nat} {b : BoxInfo}
    (hc : b.typ ∉ ContainerBoxes) (hs : b.typ ≠ stcoTag) (hco : b.typ = co64Tag)
    (h1 : b.start + b.size < b.start + b.header + 8) :
    specStep buf (f + 1) b = ([], [(b.start, b.start + b.size)]) := by
  simp only [specStep]
  rw [if_neg hc, if_neg hs, if_pos hco, if_pos h1]

theorem specStep_co64_over {buf : List Nat} {f : Nat} {b : BoxInfo}
    (hc : b.typ ∉ ContainerBoxes) (hs : b.typ ≠ stcoTag) (hco : b.typ = co64Tag)
    (h1 : ¬ b.start + b.size < b.start + b.header + 8)
    (h2 : b.start + b.size < b.start + b.header + 8 +
      _u32 (slice buf (b.start + b.header + 4) (b.start + b.header + 8)) * 8) :
    specStep buf (f + 1) b = ([], [(b.start, b.start + b.size)]) := by
  simp only [specStep]
  rw [if_neg hc, if_neg hs, if_pos hco, if_neg h1, if_pos h2]

theorem specStep_co64_ok {buf : List Nat} {f : Nat} {b : BoxInfo}
    (hc : b.typ ∉ ContainerBoxes) (hs : b.typ ≠ stcoTag) (hco : b.typ = co64Tag)
    (h1 : ¬ b.start + b.size < b.start + b.header + 8)
    (h2 : ¬ b.start + b.size < b.start + b.header + 8 +
      _u32 (slice buf (b.start + b.header + 4) (b.start + b.header + 8)) * 8) :
    specStep buf (f + 1) b =
      ([⟨b.start + b.header + 8, 8,
          _u32 (slice buf (b.start + b.header + 4) (b.start + b.header + 8))⟩], []) := by
  simp only [specStep]
  rw [if_neg hc, if_neg hs, if_pos hco, if_neg h1, if_neg h2]

theorem specStep_leaf {buf : List Nat} {f : Nat} {b : BoxInfo}
    (hc : b.typ ∉ ContainerBoxes) (hs : b.typ ≠ stcoTag) (hco : b.typ ≠ co64Tag) :
    specStep buf (f + 1) b = ([], []) := by
  simp only [specStep]
  rw [if_neg hc, if_neg hs, if_neg hco]

theorem mem_tablesOf {buf : List Nat} {f : Nat} {boxes : List BoxInfo} {t : ChunkTable} :
    t ∈ tablesOf buf f boxes ↔ ∃ c ∈ boxes, t ∈ (specStep buf f c).1 := by
  simp [tablesOf, List.mem_flatten]

theorem mem_skipsOf {buf : List Nat} {f : Nat} {boxes : List BoxInfo} {s : Nat × Nat} :
    s ∈ skipsOf buf f boxes ↔ ∃ c ∈ boxes, s ∈ (specStep buf f c).2 := by
  simp [skipsOf, List.mem_flatten]

theorem tablesOf_cons {buf : List Nat} {f : Nat} {b : BoxInfo} {rest : List BoxInfo} :
    tablesOf buf f (b :: rest) = (specStep buf f b).1 ++ tablesOf buf f rest := by
  simp [tablesOf]

theorem skipsOf_cons {buf : List Nat} {f : Nat} {b : BoxInfo} {rest : List BoxInfo} :
    skipsOf buf f (b :: rest) = (specStep buf f b).2 ++ skipsOf buf f rest := by
  simp [skipsOf]

/-! ### Location and congruence of the table spec -/

theorem specStep_loc (buf : List Nat) :
    ∀ f b,
      (∀ t ∈ (specStep buf f b).1,
        b.start ≤ t.tableStart ∧ t.tableStart + t.width * t.count ≤ b.start + b.size ∧
          (t.width = 4 ∨ t.width = 8)) ∧
      (∀ s ∈ (specStep buf f b).2, b.start ≤ s.1 ∧ s.2 ≤ b.start + b.size) := by
  intro f
  induction f with
  | zero => intro b; simp [specStep]
  | succ f ih =>
    intro b
    by_cases hc : b.typ ∈ ContainerBoxes
    · by_cases hm : b.typ = metaTag
      · by_cases hr : b.start + b.header + 4 ≤ b.start + b.size
        · rw [specStep_meta_room hm hr]
          constructor
          · intro t ht
            obtain ⟨c, hcmem, htc⟩ := mem_tablesOf.mp ht
            have hcs := iter_boxes_sound hcmem
            have h2 := (ih c).1 t htc
            exact ⟨by omega, by omega, h2.2.2⟩
          · intro s hs
            obtain ⟨c, hcmem, hsc⟩ := mem_skipsOf.mp hs
            have hcs := iter_boxes_sound hcmem
            have h2 := (ih c).2 s hsc
            exact ⟨by omega, by omega⟩
        · rw [specStep_meta_tight hm hr]
          exact ⟨by simp, by simp⟩
      · rw [specStep_container hc hm]
        constructor
        · intro t ht
          obtain ⟨c, hcmem, htc⟩ := mem_tablesOf.mp ht
          have hcs := iter_boxes_sound hcmem
          have h2 := (ih c).1 t htc
          exact ⟨by omega, by omega, h2.2.2⟩
        · intro s hs
          obtain ⟨c, hcmem, hsc⟩ := mem_skipsOf.mp hs
          have hcs := iter_boxes_sound hcmem
          have h2 := (ih c).2 s hsc
          exact ⟨by omega, by omega⟩
    · by_cases hs : b.typ = stcoTag
      · by_cases h1 : b.start + b.size < b.start + b.header + 8
        · rw [specStep_stco_small hc hs h1]
          refine ⟨by simp, ?_⟩
          intro s hsm
          rw [List.mem_singleton] at hsm
          subst hsm
          exact ⟨Nat.le_refl _, Nat.le_refl _⟩
        · by_cases h2 : b.start + b.size < b.start + b.header + 8 +
              _u32 (slice buf (b.start + b.header + 4) (b.start + b.header + 8)) * 4
          · rw [specStep_stco_over hc hs h1 h2]
            refine ⟨by simp, ?_⟩
            intro s hsm
            rw [List.mem_singleton] at hsm
            subst hsm
            exact ⟨Nat.le_refl _, Nat.le_refl _⟩
          · rw [specStep_stco_ok hc hs h1 h2]
            refine ⟨?_, by simp⟩
            intro t htm
            rw [List.mem_singleton] at htm
            subst htm
            refine ⟨?_, ?_, Or.inl rfl⟩ <;> (simp only []; omega)
      · by_cases hco : b.typ = co64Tag
        · by_cases h1 : b.start + b.size < b.start + b.header + 8
          · rw [specStep_co64_small hc hs hco h1]
            refine ⟨by simp, ?_⟩
            intro s hsm
            rw [List.mem_singleton] at hsm
            subst hsm
            exact ⟨Nat.le_refl _, Nat.le_refl _⟩
          · by_cases h2 : b.start + b.size < b.start + b.header + 8 +
                _u32 (slice buf (b.start + b.header + 4) (b.start + b.header + 8)) * 8
            · rw [specStep_co64_over hc hs hco h1 h2]
              refine ⟨by simp, ?_⟩
              intro s hsm
              rw [List.mem_singleton] at hsm
              subst hsm
              exact ⟨Nat.le_refl _, Nat.le_refl _⟩
            · rw [specStep_co64_ok hc hs hco h1 h2]
              refine ⟨?_, by simp⟩
              intro t htm
              rw [List.mem_singleton] at htm
              subst htm
              refine ⟨?_, ?_, Or.inr rfl⟩ <;> (simp only []; omega)
        · rw [specStep_leaf hc hs hco]
          exact ⟨by simp, by simp⟩

theorem specStep_congr {buf1 buf2 : List Nat} {m : Nat} (hd : buf1.drop m = buf2.drop m) :
    ∀ f b, m ≤ b.start → specStep buf1 f b = specStep buf2 f b := by
  intro f
  induction f with
  | zero => intro b _; rfl
  | succ f ih =>
    intro b hmb
    have hec : slice buf1 (b.start + b.header + 4) (b.start + b.header + 8)
        = slice buf2 (b.start + b.header + 4) (b.start + b.header + 8) :=
      slice_congr_drop hd (by omega)
    by_cases hc : b.typ ∈ ContainerBoxes
    · by_cases hm : b.typ = metaTag
      · by_cases hr : b.start + b.header + 4 ≤ b.start + b.size
        · rw [specStep_meta_room hm hr, specStep_meta_room hm hr]
          have hib : iter_boxes buf1 (b.start + b.header + 4) (b.start + b.size)
              = iter_boxes buf2 (b.start + b.header + 4) (b.start + b.size) :=
            iter_boxes_congr hd (by omega)
          rw [hib]
          have hl : ∀ c ∈ iter_boxes buf2 (b.start + b.header + 4) (b.start + b.size),
              specStep buf1 f c = specStep buf2 f c := by
            intro c hcm
            exact ih c (by have := iter_boxes_sound hcm; omega)
          have ht : tablesOf buf1 f (iter_boxes buf2 (b.start + b.header + 4) (b.start + b.size))
              = tablesOf buf2 f (iter_boxes buf2 (b.start + b.header + 4) (b.start + b.size)) := by
            unfold tablesOf
            congr 1
            exact List.map_congr_left (fun c hcm => by rw [hl c hcm])
          have hsk : skipsOf buf1 f (iter_boxes buf2 (b.start + b.header + 4) (b.start + b.size))
              = skipsOf buf2 f (iter_boxes buf2 (b.start + b.header + 4) (b.start + b.size)) := by
            unfold skipsOf
            congr 1
            exact List.map_congr_left (fun c hcm => by rw [hl c hcm])
          rw [ht, hsk]
        · rw [specStep_meta_tight hm hr, specStep_meta_tight hm hr]
      · rw [specStep_container hc hm, specStep_container hc hm]
        have hib : iter_boxes buf1 (b.start + b.header) (b.start + b.size)
            = iter_boxes buf2 (b.start + b.header) (b.start + b.size) :=
          iter_boxes_congr hd (by omega)
        rw [hib]
        have hl : ∀ c ∈ iter_boxes buf2 (b.start + b.header) (b.start + b.size),
            specStep buf1 f c = specStep buf2 f c := by
          intro c hcm
          exact ih c (by have := iter_boxes_sound hcm; omega)
        have ht : tablesOf buf1 f (iter_boxes buf2 (b.start + b.header) (b.start + b.size))
            = tablesOf buf2 f (iter_boxes buf2 (b.start + b.header) (b.start + b.size)) := by
          unfold tablesOf
          congr 1
          exact List.map_congr_left (fun c hcm => by rw [hl c hcm])
        have hsk : skipsOf buf1 f (iter_boxes buf2 (b.start + b.header) (b.start + b.size))
            = skipsOf buf2 f (iter_boxes buf2 (b.start + b.header) (b.start + b.size)) := by
          unfold skipsOf
          congr 1
          exact List.map_congr_left (fun c hcm => by rw [hl c hcm])
        rw [ht, hsk]
    · by_cases hs : b.typ = stcoTag
      · by_cases h1 : b.start + b.size < b.start + b.header + 8
        · rw [specStep_stco_small hc hs h1, specStep_stco_small hc hs h1]
        · by_cases h2 : b.start + b.size < b.start + b.header + 8 +
              _u32 (slice buf1 (b.start + b.header + 4) (b.start + b.header + 8)) * 4
          · rw [specStep_stco_over hc hs h1 h2,
              specStep_stco_over hc hs h1 (by rw [← hec]; exact h2)]
          · rw [specStep_stco_ok hc hs h1 h2,
              specStep_stco_ok hc hs h1 (by rw [← hec]; exact h2), hec]
      · by_cases hco : b.typ = co64Tag
        · by_cases h1 : b.start + b.size < b.start + b.header + 8
          · rw [specStep_co64_small hc hs hco h1, specStep_co64_small hc hs hco h1]
          · by_cases h2 : b.start + b.size < b.start + b.header + 8 +
                _u32 (slice buf1 (b.start + b.header + 4) (b.start + b.header + 8)) * 8
            · rw [specStep_co64_over hc hs hco h1 h2,
                specStep_co64_over hc hs hco h1 (by rw [← hec]; exact h2)]
            · rw [specStep_co64_ok hc hs hco h1 h2,
                specStep_co64_ok hc hs hco h1 (by rw [← hec]; exact h2), hec]
        · rw [specStep_leaf hc hs hco, specStep_leaf hc hs hco]

theorem tablesOf_congr {buf1 buf2 : List Nat} {m : Nat} (hd : buf1.drop m = buf2.drop m)
    {f : Nat} {boxes : List BoxInfo} (hb : ∀ c ∈ boxes, m ≤ c.start) :
    tablesOf buf1 f boxes = tablesOf buf2 f boxes ∧
      skipsOf buf1 f boxes = skipsOf buf2 f boxes := by
  constructor
  · unfold tablesOf
    congr 1
    exact List.map_congr_left (fun c hcm => by rw [specStep_congr hd f c (hb c hcm)])
  · unfold skipsOf
    congr 1
    exact List.map_congr_left (fun c hcm => by rw [specStep_congr hd f c (hb c hcm)])

theorem tablesOf_loc {buf : List Nat} {f : Nat} {boxes : List BoxInfo} :
    (∀ t ∈ tablesOf buf f boxes, ∃ c ∈ boxes,
      c.start ≤ t.tableStart ∧ t.tableStart + t.width * t.count ≤ c.start + c.size ∧
        (t.width = 4 ∨ t.width = 8)) ∧
    (∀ s ∈ skipsOf buf f boxes, ∃ c ∈ boxes, c.start ≤ s.1 ∧ s.2 ≤ c.start + c.size) := by
  constructor
  · intro t ht
    obtain ⟨c, hcmem, htc⟩ := mem_tablesOf.mp ht
    exact ⟨c, hcmem, (specStep_loc buf f c).1 t htc⟩
  · intro s hs
    obtain ⟨c, hcmem, hsc⟩ := mem_skipsOf.mp hs
    exact ⟨c, hcmem, (specStep_loc buf f c).2 s hsc⟩

/-! ### Unfolding the rewriter's sibling loop -/

theorem adjSeq_nil (delta : Int) (fuel : Nat) (buf : List Nat) :
    adjSeq delta fuel buf [] = .ok buf := rfl

theorem adjSeq_err_init (delta : Int) (fuel : Nat) (x : List Nat) :
    ∀ boxes : List BoxInfo,
      List.foldl (fun st c => match st with
        | .error y => .error y
        | .ok bf => adjStep delta fuel bf c)
        (Except.error x : Except (List Nat) (List Nat)) boxes = .error x := by
  intro boxes
  induction boxes with
  | nil => rfl
  | cons c l ihl => rw [List.foldl_cons]; exact ihl

theorem adjSeq_cons_ok {delta : Int} {fuel : Nat} {buf bf : List Nat} {b : BoxInfo}
    {rest : List BoxInfo} (h : adjStep delta fuel buf b = .ok bf) :
    adjSeq delta fuel buf (b :: rest) = adjSeq delta fuel bf rest := by
  unfold adjSeq
  rw [List.foldl_cons]
  simp only []
  rw [h]

theorem adjSeq_cons_err {delta : Int} {fuel : Nat} {buf x : List Nat} {b : BoxInfo}
    {rest : List BoxInfo} (h : adjStep delta fuel buf b = .error x) :
    adjSeq delta fuel buf (b :: rest) = .error x := by
  unfold adjSeq
  rw [List.foldl_cons]
  simp only []
  rw [h]
  exact adjSeq_err_init delta fuel x rest

/-! ### The rewriter on one sub-region -/

theorem adjSeq_region_spec (delta : Int) (f : Nat) (ih : MainProp delta f)
    (buf buf1 : List Nat) (rs re : Nat) (hre : re ≤ buf.length) (hreg : re - rs ≤ 8 * f)
    (hrun : adjSeq delta f buf (iter_boxes buf rs re) = .ok buf1) :
    buf1.length = buf.length ∧
    (∀ p, (∀ t ∈ tablesOf buf f (iter_boxes buf rs re),
        p < t.tableStart ∨ t.tableStart + t.width * t.count ≤ p) →
      byteAt buf1 p = byteAt buf p) ∧
    (∀ t ∈ tablesOf buf f (iter_boxes buf rs re), ∀ k, k < t.count →
      (_u32 (slice buf1 (t.tableStart + t.width * k) (t.tableStart + t.width * k + t.width)) : Int)
        = (_u32 (slice buf (t.tableStart + t.width * k)
            (t.tableStart + t.width * k + t.width)) : Int) + delta) ∧
    (∀ s ∈ skipsOf buf f (iter_boxes buf rs re), ∀ p, s.1 ≤ p → p < s.2 →
      byteAt buf1 p = byteAt buf p) ∧
    buf1.drop re = buf.drop re := by
  have hg : ∀ c ∈ iter_boxes buf rs re, 8 ≤ c.header ∧ c.header ≤ c.size ∧
      c.start + c.size ≤ buf.length ∧ c.size ≤ 8 * f := by
    intro c hcm
    have hcs := iter_boxes_sound hcm
    exact ⟨hcs.2.1, hcs.2.2.1, by omega, by omega⟩
  obtain ⟨M1, M2, M3, M4⟩ :=
    ih (iter_boxes buf rs re) rs buf buf1 hg (iter_boxes_chained buf rs re) hrun
  refine ⟨M1, M2, M3, M4, ?_⟩
  apply drop_eq_of_agree M1 re
  intro p hp
  apply M2
  intro t ht
  obtain ⟨c, hcm, hloc⟩ := tablesOf_loc.1 t ht
  have hcs := iter_boxes_sound hcm
  right
  omega

/-! ### The rewriter on a single box -/

theorem adjStep_ok_spec (delta : Int) (f : Nat) (ih : MainProp delta f)
    (b : BoxInfo) (buf buf1 : List Nat)
    (h8 : 8 ≤ b.header) (hhs : b.header ≤ b.size) (hlen : b.start + b.size ≤ buf.length)
    (hfuel : b.size ≤ 8 * (f + 1))
    (hstep : adjStep delta (f + 1) buf b = .ok buf1) :
    buf1.length = buf.length ∧
    (∀ p, (∀ t ∈ (specStep buf (f + 1) b).1,
        p < t.tableStart ∨ t.tableStart + t.width * t.count ≤ p) →
      byteAt buf1 p = byteAt buf p) ∧
    (∀ t ∈ (specStep buf (f + 1) b).1, ∀ k, k < t.count →
      (_u32 (slice buf1 (t.tableStart + t.width * k) (t.tableStart + t.width * k + t.width)) : Int)
        = (_u32 (slice buf (t.tableStart + t.width * k)
            (t.tableStart + t.width * k + t.width)) : Int) + delta) ∧
    (∀ s ∈ (specStep buf (f + 1) b).2, ∀ p, s.1 ≤ p → p < s.2 → byteAt buf1 p = byteAt buf p) ∧
    buf1.drop (b.start + b.size) = buf.drop (b.start + b.size) := by
  by_cases hc : b.typ ∈ ContainerBoxes
  · by_cases hm : b.typ = metaTag
    · by_cases hr : b.start + b.header + 4 ≤ b.start + b.size
      · rw [adjStep_meta_room hm hr] at hstep
        obtain ⟨M1, M2, M3, M4, M5⟩ := adjSeq_region_spec delta f ih buf buf1
          (b.start + b.header + 4) (b.start + b.size) (by omega) (by omega) hstep
        rw [specStep_meta_room hm hr]
        exact ⟨M1, M2, M3, M4, M5⟩
      · rw [adjStep_meta_tight hm hr] at hstep
        cases hstep
        rw [specStep_meta_tight hm hr]
        refine ⟨rfl, fun p _ => rfl, ?_, ?_, rfl⟩
        · intro t ht; exact absurd ht (List.not_mem_nil t)
        · intro s hs; exact absurd hs (List.not_mem_nil s)
    · rw [adjStep_container hc hm] at hstep
      obtain ⟨M1, M2, M3, M4, M5⟩ := adjSeq_region_spec delta f ih buf buf1
        (b.start + b.header) (b.start + b.size) (by omega) (by omega) hstep
      rw [specStep_container hc hm]
      exact ⟨M1, M2, M3, M4, M5⟩
  · by_cases hs : b.typ = stcoTag
    · by_cases h1 : b.start + b.size < b.start + b.header + 8
      · rw [adjStep_stco_small hc hs h1] at hstep
        cases hstep
        rw [specStep_stco_small hc hs h1]
        exact ⟨rfl, fun p _ => rfl, fun t ht => absurd ht (List.not_mem_nil t),
          fun s _ p _ _ => rfl, rfl⟩
      · by_cases h2 : b.start + b.size < b.start + b.header + 8 +
            _u32 (slice buf (b.start + b.header + 4) (b.start + b.header + 8)) * 4
        · rw [adjStep_stco_over hc hs h1 h2] at hstep
          cases hstep
          rw [specStep_stco_over hc hs h1 h2]
          exact ⟨rfl, fun p _ => rfl, fun t ht => absurd ht (List.not_mem_nil t),
            fun s _ p _ _ => rfl, rfl⟩
        · rw [adjStep_stco_ok hc hs h1 h2] at hstep
          have hlen2 : (b.start + b.header + 8) +
              4 * _u32 (slice buf (b.start + b.header + 4) (b.start + b.header + 8))
                ≤ buf.length := by omega
          obtain ⟨l1, t1, d1, e1⟩ := patchLoop_spec 4 (by omega) delta
            (_u32 (slice buf (b.start + b.header + 4) (b.start + b.header + 8)))
            buf (b.start + b.header + 8) buf1 hlen2 hstep
          rw [specStep_stco_ok hc hs h1 h2]
          refine ⟨l1, ?_, ?_, ?_, ?_⟩
          · intro p hp
            have hpt := hp ⟨b.start + b.header + 8, 4,
              _u32 (slice buf (b.start + b.header + 4) (b.start + b.header + 8))⟩
              (List.mem_singleton_self _)
            rcases hpt with hlt | hge
            · exact byteAt_congr_take t1 hlt
            · exact byteAt_congr_drop d1 hge
          · intro t ht k hk
            have ht2 : t = ⟨b.start + b.header + 8, 4,
                _u32 (slice buf (b.start + b.header + 4) (b.start + b.header + 8))⟩ :=
              List.mem_singleton.mp ht
            subst ht2
            exact e1 k hk
          · intro s hsm; exact absurd hsm (List.not_mem_nil s)
          · exact drop_mono_eq d1 (by omega)
    · by_cases hco : b.typ = co64Tag
      · by_cases h1 : b.start + b.size < b.start + b.header + 8
        · rw [adjStep_co64_small hc hs hco h1] at hstep
          cases hstep
          rw [specStep_co64_small hc hs hco h1]
          exact ⟨rfl, fun p _ => rfl, fun t ht => absurd ht (List.not_mem_nil t),
            fun s _ p _ _ => rfl, rfl⟩
        · by_cases h2 : b.start + b.size < b.start + b.header + 8 +
              _u32 (slice buf (b.start + b.header + 4) (b.start + b.header + 8)) * 8
          · rw [adjStep_co64_over hc hs hco h1 h2] at hstep
            cases hstep
            rw [specStep_co64_over hc hs hco h1 h2]
            exact ⟨rfl, fun p _ => rfl, fun t ht => absurd ht (List.not_mem_nil t),
              fun s _ p _ _ => rfl, rfl⟩
          · rw [adjStep_co64_ok hc hs hco h1 h2] at hstep
            have hlen2 : (b.start + b.header + 8) +
                8 * _u32 (slice buf (b.start + b.header + 4) (b.start + b.header + 8))
                  ≤ buf.length := by omega
            obtain ⟨l1, t1, d1, e1⟩ := patchLoop_spec 8 (by omega) delta
              (_u32 (slice buf (b.start + b.header + 4) (b.start + b.header + 8)))
              buf (b.start + b.header + 8) buf1 hlen2 hstep
            rw [specStep_co64_ok hc hs hco h1 h2]
            refine ⟨l1, ?_, ?_, ?_, ?_⟩
            · intro p hp
              have hpt := hp ⟨b.start + b.header + 8, 8,
                _u32 (slice buf (b.start + b.header + 4) (b.start + b.header + 8))⟩
                (List.mem_singleton_self _)
              rcases hpt with hlt | hge
              · exact byteAt_congr_take t1 hlt
              · exact byteAt_congr_drop d1 hge
            · intro t ht k hk
              have ht2 : t = ⟨b.start + b.header + 8, 8,
                  _u32 (slice buf (b.start + b.header + 4) (b.start + b.header + 8))⟩ :=
                List.mem_singleton.mp ht
              subst ht2
              exact e1 k hk
            · intro s hsm; exact absurd hsm (List.not_mem_nil s)
            · exact drop_mono_eq d1 (by omega)
      · rw [adjStep_leaf hc hs hco] at hstep
        cases hstep
        rw [specStep_leaf hc hs hco]
        exact ⟨rfl, fun p _ => rfl, fun t ht => absurd ht (List.not_mem_nil t),
          fun s hsm => absurd hsm (List.not_mem_nil s), rfl⟩

/-! ### The main induction over fuel and sibling lists -/

theorem mainProp_zero (delta : Int) : MainProp delta 0 := by
  intro boxes m buf out hg _ hrun
  cases boxes with
  | nil =>
    rw [adjSeq_nil] at hrun
    cases hrun
    refine ⟨rfl, fun p _ => rfl, ?_, ?_⟩
    · intro t ht; simp [tablesOf] at ht
    · intro s hsm; simp [skipsOf] at hsm
  | cons b rest =>
    exfalso
    have h := hg b (List.mem_cons_self b rest)
    omega

theorem mainProp_succ (delta : Int) (f : Nat) (ih : MainProp delta f) :
    MainProp delta (f + 1) := by
  intro boxes
  induction boxes with
  | nil =>
    intro m buf out _ _ hrun
    rw [adjSeq_nil] at hrun
    cases hrun
    refine ⟨rfl, fun p _ => rfl, ?_, ?_⟩
    · intro t ht; simp [tablesOf] at ht
    · intro s hsm; simp [skipsOf] at hsm
  | cons b rest ihrest =>
    intro m buf out hg hch hrun
    obtain ⟨hb8, hbhs, hblen, hbfuel⟩ := hg b (List.mem_cons_self b rest)
    have hcrest : Chained (b.start + b.size) rest := by
      cases hch
      assumption
    cases hstep : adjStep delta (f + 1) buf b with
    | error x =>
      rw [adjSeq_cons_err hstep] at hrun
      exact absurd hrun (by simp)
    | ok buf1 =>
      rw [adjSeq_cons_ok hstep] at hrun
      obtain ⟨s1, s2, s3, s4, s5⟩ :=
        adjStep_ok_spec delta f ih b buf buf1 hb8 hbhs hblen hbfuel hstep
      have hgrest : ∀ c ∈ rest, 8 ≤ c.header ∧ c.header ≤ c.size ∧
          c.start + c.size ≤ buf1.length ∧ c.size ≤ 8 * (f + 1) := by
        intro c hcm
        have h := hg c (List.mem_cons_of_mem b hcm)
        rw [s1]
        exact h
      obtain ⟨R1, R2, R3, R4⟩ := ihrest (b.start + b.size) buf1 out hgrest hcrest hrun
      have hrm : ∀ c ∈ rest, b.start + b.size ≤ c.start := chained_le hcrest
      obtain ⟨hTeq, hSeq⟩ :=
        (tablesOf_congr s5 hrm :
          tablesOf buf1 (f + 1) rest = tablesOf buf (f + 1) rest ∧
            skipsOf buf1 (f + 1) rest = skipsOf buf (f + 1) rest)
      have hrt : ∀ t ∈ tablesOf buf1 (f + 1) rest, b.start + b.size ≤ t.tableStart := by
        intro t ht
        obtain ⟨c, hcm, hloc⟩ := tablesOf_loc.1 t ht
        have := hrm c hcm
        omega
      have hbt := (specStep_loc buf (f + 1) b).1
      have hbs2 := (specStep_loc buf (f + 1) b).2
      refine ⟨R1.trans s1, ?_, ?_, ?_⟩
      · intro p hp
        have hp1 : byteAt out p = byteAt buf1 p := by
          apply R2
          intro t ht
          apply hp
          rw [tablesOf_cons]
          exact List.mem_append_right _ (hTeq ▸ ht)
        have hp2 : byteAt buf1 p = byteAt buf p := by
          apply s2
          intro t ht
          apply hp
          rw [tablesOf_cons]
          exact List.mem_append_left _ ht
        exact hp1.trans hp2
      · intro t ht k hk
        rw [tablesOf_cons] at ht
        rcases List.mem_append.mp ht with htl | htr
        · have hloc := hbt t htl
          have hwk : t.width * (k + 1) ≤ t.width * t.count :=
            Nat.mul_le_mul_left t.width (by omega)
          rw [Nat.mul_succ] at hwk
          have hout : slice out (t.tableStart + t.width * k)
              (t.tableStart + t.width * k + t.width)
              = slice buf1 (t.tableStart + t.width * k)
                (t.tableStart + t.width * k + t.width) := by
            apply slice_eq_of_agree R1
            intro p hp1 hp2
            apply R2
            intro t2 ht2
            left
            have := hrt t2 ht2
            omega
          rw [hout]
          exact s3 t htl k hk
        · have e1 := R3 t (hTeq.symm ▸ htr) k hk
          obtain ⟨c, hcm, hloc2⟩ := tablesOf_loc.1 t htr
          have hm2 := hrm c hcm
          have hbuf1 : slice buf1 (t.tableStart + t.width * k)
              (t.tableStart + t.width * k + t.width)
              = slice buf (t.tableStart + t.width * k)
                (t.tableStart + t.width * k + t.width) :=
            slice_congr_drop s5 (by omega)
          rw [hbuf1] at e1
          exact e1
      · intro s hsm p hsp1 hsp2
        rw [skipsOf_cons] at hsm
        rcases List.mem_append.mp hsm with hsl | hsr
        · have hloc := hbs2 s hsl
          have hout : byteAt out p = byteAt buf1 p := by
            apply R2
            intro t2 ht2
            left
            have := hrt t2 ht2
            omega
          rw [hout]
          exact s4 s hsl p hsp1 hsp2
        · have e1 := R4 s (hSeq.symm ▸ hsr) p hsp1 hsp2
          obtain ⟨c, hcm, hloc2⟩ := tablesOf_loc.2 s hsr
          have hm2 := hrm c hcm
          have hbp : byteAt buf1 p = byteAt buf p := byteAt_congr_drop s5 (by omega)
          rw [e1, hbp]

theorem adjMain (delta : Int) : ∀ fuel, MainProp delta fuel := by
  intro fuel
  induction fuel with
  | zero => exact mainProp_zero delta
  | succ f ih => exact mainProp_succ delta f ih

/-! ### Support lemmas for the track classifier, path resolver and atom dict -/

theorem lvtLoop_eq_find (buf : List Nat) :
    ∀ boxes : List BoxInfo,
      lvtLoop buf boxes =
        (boxes.find? (fun b => isVideTrak buf b)).map (fun b => (b.start, b.size, b.header)) := by
  intro boxes
  induction boxes with
  | nil => rfl
  | cons b rest ihr =>
    by_cases ht : b.typ = trakTag
    · cases hmd : (iter_boxes buf (b.start + b.header) (b.start + b.size)).find?
          (fun x => x.typ = mdiaTag) with
      | none =>
        have hv : isVideTrak buf b = false := by
          simp only [isVideTrak, if_pos ht, hmd]
        simp only [lvtLoop, if_neg (not_not_intro ht), hmd]
        rw [List.find?_cons_of_neg rest (by rw [hv]; simp), ihr]
      | some md =>
        cases hdl : (iter_boxes buf (md.start + md.header) (md.start + md.size)).find?
            (fun x => x.typ = hdlrTag) with
        | none =>
          have hv : isVideTrak buf b = false := by
            simp only [isVideTrak, if_pos ht, hmd, hdl]
          simp only [lvtLoop, if_neg (not_not_intro ht), hmd, hdl]
          rw [List.find?_cons_of_neg rest (by rw [hv]; simp), ihr]
        | some hd =>
          by_cases hvd : parse_hdlr_handler_type buf hd.start hd.size hd.header = videTag
          · have hv : isVideTrak buf b = true := by
              simp only [isVideTrak, if_pos ht, hmd, hdl]
              exact decide_eq_true hvd
            simp only [lvtLoop, if_neg (not_not_intro ht), hmd, hdl, if_pos hvd]
            rw [List.find?_cons_of_pos rest hv]
            rfl
          · have hv : isVideTrak buf b = false := by
              simp only [isVideTrak, if_pos ht, hmd, hdl]
              exact decide_eq_false hvd
            simp only [lvtLoop, if_neg (not_not_intro ht), hmd, hdl, if_neg hvd]
            rw [List.find?_cons_of_neg rest (by rw [hv]; simp), ihr]
    · have hv : isVideTrak buf b = false := by
        simp only [isVideTrak, if_neg ht]
      simp only [lvtLoop, if_pos ht]
      rw [List.find?_cons_of_neg rest (by rw [hv]; simp), ihr]

theorem ffScan_first (recurse : Nat → Nat → Option (Nat × Nat × Nat)) (want : List Nat)
    (last : Bool) :
    ∀ (pre : List BoxInfo) (b : BoxInfo) (post : List BoxInfo),
      (∀ x ∈ pre, x.typ ≠ want) → b.typ = want →
      ffScan recurse want last (pre ++ b :: post) =
        (if last then some (b.start, b.size, b.header)
         else if b.typ = metaTag then
           (if b.start + b.header + 4 ≤ b.start + b.size then
             recurse (b.start + b.header + 4) (b.start + b.size)
           else none)
         else recurse (b.start + b.header) (b.start + b.size)) := by
  intro pre
  induction pre with
  | nil =>
    intro b post _ hb
    simp only [List.nil_append, ffScan, if_neg (not_not_intro hb)]
  | cons x pre ihp =>
    intro b post hpre hb
    simp only [List.cons_append, ffScan, if_pos (hpre x (List.mem_cons_self x pre))]
    exact ihp b post (fun y hy => hpre y (List.mem_cons_of_mem x hy)) hb

theorem getLast?_cons_getD {α : Type} :
    ∀ (l : List α) (a : α), (a :: l).getLast? = some (l.getLast?.getD a) := by
  intro l
  induction l with
  | nil => intro a; rfl
  | cons b l ihl =>
    intro a
    rw [List.getLast?_cons_cons, ihl b]
    rfl

theorem foldl_last_wins (tag : List Nat) :
    ∀ (l : List BoxInfo) (acc : Option (Nat × Nat × Nat)),
      l.foldl (fun a b => if b.typ = tag then some (b.start, b.size, b.header) else a) acc
        = match (l.filter (fun b => b.typ = tag)).getLast? with
          | some b => some (b.start, b.size, b.header)
          | none => acc := by
  intro l
  induction l with
  | nil => intro acc; rfl
  | cons b rest ihr =>
    intro acc
    rw [List.foldl_cons]
    by_cases hb : b.typ = tag
    · simp only [if_pos hb]
      rw [ihr (some (b.start, b.size, b.header))]
      rw [List.filter_cons_of_pos (by exact decide_eq_true hb)]
      cases hf : (rest.filter (fun c => c.typ = tag)).getLast? with
      | none =>
        rw [getLast?_cons_getD, hf]
        rfl
      | some y =>
        rw [getLast?_cons_getD, hf]
        rfl
    · simp only [if_neg hb]
      rw [ihr acc]
      rw [List.filter_cons_of_neg (by simpa using hb)]

/-! ### Claim theorems -/

/-- C1: for every index-box buffer and every delta for which
`adjust_chunk_offsets` returns (no `OverflowError` escapes), every entry of
every `stco` (4-byte entries) and `co64` (8-byte entries) table reachable
through the container-tag set — `chunkTables` mirrors exactly the rewriter's
reachability, at any nesting depth — is rewritten to (original value +
delta) exactly once, every byte outside those tables is left identical, and
any `stco`/`co64` box whose declared table extent exceeds its bounds is left
entirely untouched. -/
theorem adjust_chunk_offsets_rewrites_tables (moov out : List Nat) (delta : Int)
    (h : adjust_chunk_offsets moov delta = .ok out) :
    out.length = moov.length ∧
    (∀ p, (∀ t ∈ chunkTables moov, p < t.tableStart ∨ t.tableStart + t.width * t.count ≤ p) →
      byteAt out p = byteAt moov p) ∧
    (∀ t ∈ chunkTables moov, ∀ k, k < t.count →
      (_u32 (slice out (t.tableStart + t.width * k) (t.tableStart + t.width * k + t.width)) : Int)
        = (_u32 (slice moov (t.tableStart + t.width * k)
            (t.tableStart + t.width * k + t.width)) : Int) + delta) ∧
    (∀ s ∈ skippedTables moov, ∀ p, s.1 ≤ p → p < s.2 → byteAt out p = byteAt moov p) := by
  have hg : ∀ b ∈ iter_boxes moov 0 moov.length, 8 ≤ b.header ∧ b.header ≤ b.size ∧
      b.start + b.size ≤ moov.length ∧ b.size ≤ 8 * (moov.length + 1) := by
    intro b hb
    have h2 := iter_boxes_sound hb
    exact ⟨h2.2.1, h2.2.2.1, h2.2.2.2, by omega⟩
  exact adjMain delta (moov.length + 1) (iter_boxes moov 0 moov.length) 0 moov out hg
    (iter_boxes_chained moov 0 moov.length) h

/-- Witness for C1: on a concrete 32-byte `moov` with one two-entry `stco`,
the rewrite succeeds and the conclusion holds. -/
theorem adjust_chunk_offsets_rewrites_tables_witness :
    adjust_chunk_offsets demo1 7 = .ok demo1out ∧ demo1out.length = demo1.length :=
  ⟨rfl, (adjust_chunk_offsets_rewrites_tables demo1 demo1out 7 rfl).1⟩

/-- C3 counterexample: an `mdhd` box whose version byte is 2 (neither 0 nor
1) is not a hard decode failure — `parse_mdhd` returns its version-0 fields
`(timescale, duration) = (1000, 5000)`. -/
theorem parse_mdhd_version2_decodes :
    byteAt demo3 8 = 2 ∧ parse_mdhd demo3 0 28 8 = .ok (1000, 5000) := ⟨rfl, rfl⟩

/-- C3 amended: `parse_mdhd` treats only `version = 1` specially; every
other version byte (not just 0) is decoded with the version-0 layout, and
only insufficient data (fewer than 20 data bytes) is a hard decode failure
for such boxes. -/
theorem parse_mdhd_non_v1_uses_v0_layout (buf : List Nat) (start size header : Nat)
    (h4 : 4 ≤ (slice buf (start + header) (start + size)).length)
    (hv : (slice buf (start + header) (start + size)).getD 0 0 ≠ 1) :
    parse_mdhd buf start size header =
      (if (slice buf (start + header) (start + size)).length < 20 then
        .error "mdhd v0 too small"
      else .ok (_u32 (slice (slice buf (start + header) (start + size)) 12 16),
        _u32 (slice (slice buf (start + header) (start + size)) 16 20))) := by
  simp only [parse_mdhd]
  rw [if_neg (by omega), if_neg hv]

/-- Witness for the amended C3 at the concrete version-2 `mdhd`. -/
theorem parse_mdhd_non_v1_uses_v0_layout_witness :
    parse_mdhd demo3 0 28 8 =
      (if (slice demo3 (0 + 8) (0 + 28)).length < 20 then .error "mdhd v0 too small"
       else .ok (_u32 (slice (slice demo3 (0 + 8) (0 + 28)) 12 16),
         _u32 (slice (slice demo3 (0 + 8) (0 + 28)) 16 20))) :=
  parse_mdhd_non_v1_uses_v0_layout demo3 0 28 8 (by decide) (by decide)

/-- C6: every box yielded by `iter_boxes` satisfies `header ≤ size` and
`start + size ≤ end`; when the decoded box at the cursor would violate
either condition the walk stops there, returning the (possibly empty)
truncated sequence rather than an error — stated both for standard-size
boxes (size from `size32`, header 8) and for extended-size boxes (64-bit
decoded size, header 16). -/
theorem iter_boxes_yield_invariant :
    (∀ (buf : List Nat) (s e : Nat), ∀ b ∈ iter_boxes buf s e,
      b.header ≤ b.size ∧ b.start + b.size ≤ e) ∧
    (∀ (buf : List Nat) (i e : Nat), i + 8 ≤ e →
      _u32 (slice buf i (i + 4)) ≠ 0 → _u32 (slice buf i (i + 4)) ≠ 1 →
      (_u32 (slice buf i (i + 4)) < 8 ∨ e < i + _u32 (slice buf i (i + 4))) →
      iter_boxes buf i e = []) ∧
    (∀ (buf : List Nat) (i e : Nat), i + 8 ≤ e →
      _u32 (slice buf i (i + 4)) = 1 → i + 16 ≤ e →
      (_u64 (slice buf (i + 8) (i + 16)) < 16 ∨ e < i + _u64 (slice buf (i + 8) (i + 16))) →
      iter_boxes buf i e = []) := by
  refine ⟨?_, ?_, ?_⟩
  · intro buf s e b hb
    have h2 := iter_boxes_sound hb
    exact ⟨h2.2.2.1, h2.2.2.2⟩
  · intro buf i e h8 h0 h1 hbad
    unfold iter_boxes
    obtain ⟨f, hf⟩ : ∃ f, e - i = f + 1 := ⟨e - i - 1, by omega⟩
    rw [hf]
    rcases hbad with hsz | hfit
    · exact iterBoxesF_std_small buf f i e h8 h1 h0 hsz
    · by_cases hsz : _u32 (slice buf i (i + 4)) < 8
      · exact iterBoxesF_std_small buf f i e h8 h1 h0 hsz
      · exact iterBoxesF_std_over buf f i e h8 h1 h0 hsz hfit
  · intro buf i e h8 h1 h16 hbad
    unfold iter_boxes
    obtain ⟨f, hf⟩ : ∃ f, e - i = f + 1 := ⟨e - i - 1, by omega⟩
    rw [hf]
    rcases hbad with hsz | hfit
    · exact iterBoxesF_ext_small buf f i e h8 h1 (by omega) hsz
    · by_cases hsz : _u64 (slice buf (i + 8) (i + 16)) < 16
      · exact iterBoxesF_ext_small buf f i e h8 h1 (by omega) hsz
      · exact iterBoxesF_ext_over buf f i e h8 h1 (by omega) hsz hfit

/-- Witness for C6: the first box of `demo6` satisfies the invariant, the
walk restarted at its oversized standard-size second box stops immediately,
and a walk over `demo7`'s 16 bytes — an extended-size header whose decoded
64-bit size `2^32 + 24` overruns the region — emits nothing. -/
theorem iter_boxes_yield_invariant_witness :
    ((⟨mdatTag, 0, 12, 8⟩ : BoxInfo).header ≤ (⟨mdatTag, 0, 12, 8⟩ : BoxInfo).size ∧
      (⟨mdatTag, 0, 12, 8⟩ : BoxInfo).start + (⟨mdatTag, 0, 12, 8⟩ : BoxInfo).size ≤ 20) ∧
    iter_boxes demo6 12 20 = [] ∧
    iter_boxes demo7 0 16 = [] :=
  ⟨iter_boxes_yield_invariant.1 demo6 0 20 ⟨mdatTag, 0, 12, 8⟩ (by decide),
   iter_boxes_yield_invariant.2.1 demo6 12 20 (by decide) (by decide) (by decide) (by decide),
   iter_boxes_yield_invariant.2.2 demo7 0 16 (by decide) (by decide) (by decide) (by decide)⟩

/-- C7: a box with `size32 = 1` and at least 16 bytes before the region end
is decoded with the following 8 bytes as a big-endian 64-bit total size and
header length 16 (correct even beyond `2^32`, as the concrete conjunct
shows); with fewer than 16 bytes remaining, the walk terminates without
emitting the box. -/
theorem iter_boxes_extended_size :
    (∀ (buf : List Nat) (i e : Nat), i + 8 ≤ e → _u32 (slice buf i (i + 4)) = 1 →
      e < i + 16 → iter_boxes buf i e = []) ∧
    (∀ (buf : List Nat) (i e : Nat), i + 8 ≤ e → _u32 (slice buf i (i + 4)) = 1 →
      i + 16 ≤ e → 16 ≤ _u64 (slice buf (i + 8) (i + 16)) →
      i + _u64 (slice buf (i + 8) (i + 16)) ≤ e →
      iter_boxes buf i e =
        ⟨decodeTag (slice buf (i + 4) (i + 8)), i, _u64 (slice buf (i + 8) (i + 16)), 16⟩ ::
          iter_boxes buf (i + _u64 (slice buf (i + 8) (i + 16))) e) ∧
    iter_boxes demo7 0 (2 ^ 32 + 24) = [⟨mdatTag, 0, 2 ^ 32 + 24, 16⟩] := by
  refine ⟨?_, ?_, by decide⟩
  · intro buf i e h8 h1 h16
    unfold iter_boxes
    obtain ⟨f, hf⟩ : ∃ f, e - i = f + 1 := ⟨e - i - 1, by omega⟩
    rw [hf]
    exact iterBoxesF_ext_short buf f i e h8 h1 h16
  · intro buf i e h8 h1 h16 hsz hfit
    unfold iter_boxes
    obtain ⟨f, hf⟩ : ∃ f, e - i = f + 1 := ⟨e - i - 1, by omega⟩
    rw [hf]
    rw [iterBoxesF_ext_cons buf f i e h8 h1 (by omega) (by omega) (by omega)]
    rw [iterBoxesF_irrel buf f (e - (i + _u64 (slice buf (i + 8) (i + 16))))
      (i + _u64 (slice buf (i + 8) (i + 16))) e (by omega) (by omega)]

/-- Witness for C7: the first conjunct at a cursor with 8 available bytes
declaring an extended size but fewer than 16 bytes remaining. -/
theorem iter_boxes_extended_size_witness :
    iter_boxes demo7 0 12 = [] :=
  iter_boxes_extended_size.1 demo7 0 12 (by decide) (by decide) (by decide)

/-- C10: the rewriter uses exact integer arithmetic: on a concrete `stco`
whose second entry plus delta reaches `2^32`, re-encoding raises (the
`error` outcome) instead of wrapping, and the first entry — patched before
the failure — remains modified, with no rollback of the buffer. -/
theorem adjust_chunk_offsets_overflow_no_rollback :
    adjust_chunk_offsets demo10 8 = .error demo10bad ∧
    demo10bad ≠ demo10 ∧
    slice demo10bad 24 28 = [0, 0, 0, 108] ∧
    _u32 (slice demo10 24 28) + 8 = 108 ∧
    slice demo10bad 28 32 = slice demo10 28 32 ∧
    (2 ^ 32 : Int) ≤ (_u32 (slice demo10 28 32) : Int) + 8 :=
  ⟨rfl, by decide, by decide, by decide, by decide, by decide⟩

/-- C2: whenever the rewrite proceeds (both atoms found, not already
fast-start, valid insertion point after `ftyp`, `moov` not before it) and
offset adjustment succeeds, `process_file` uses delta = `moov`'s total size
and writes exactly: bytes up to the insertion point, the rewritten `moov`,
the original bytes from the insertion point to `moov`'s old start, and the
bytes after `moov`'s old end. -/
theorem process_file_assembles_output (data : List Nat) (ms msz mh fs fsz fh : Nat)
    (adjusted : List Nat)
    (hmoov : find_top_level_atoms data moovTag = some (ms, msz, mh))
    (hftyp : find_top_level_atoms data ftypTag = some (fs, fsz, fh))
    (hfast : moov_is_faststart data (ms : Int) (mdatStartOf data) = false)
    (hins1 : 0 < fs + fsz) (hins2 : fs + fsz ≤ data.length)
    (hlay : fs + fsz ≤ ms)
    (hadj : adjust_chunk_offsets (slice data ms (ms + msz)) (msz : Int) = .ok adjusted) :
    process_file data =
      .wrote (slice data 0 (fs + fsz) ++ adjusted ++ slice data (fs + fsz) ms
        ++ slice data (ms + msz) data.length) := by
  unfold process_file
  rw [hmoov, hftyp]
  simp only []
  rw [if_neg (by rw [hfast]; simp)]
  rw [if_neg (show ¬ (fs + fsz ≤ 0 ∨ data.length < fs + fsz) by omega)]
  rw [if_neg (show ¬ ms < fs + fsz by omega)]
  rw [hadj]

/-- Witness for C2 at the concrete file `demo2` (`ftyp` + `mdat` + `moov`
with one `stco` entry): the entry 24 becomes 24 + 28 = 52 and the output is
`ftyp`, rewritten `moov`, `mdat`. -/
theorem process_file_assembles_output_witness :
    process_file demo2 = .wrote demo2out :=
  process_file_assembles_output demo2 32 28 8 0 16 8 demo2adj rfl rfl (by decide)
    (by decide) (by decide) (by decide) rfl

/-- C4: `locate_video_trak` returns the span of the first `trak` child of
the first `moov` (file order) whose first `mdia`'s first `hdlr` declares
handler "vide" (`isVideTrak`); a `trak` lacking `mdia` or `hdlr` merely
fails the predicate and is skipped; the result is `none` when `moov` is
absent or no `trak` qualifies.  On the concrete `demo4`, the first `trak`'s
handler is "soun" and the later "vide" `trak` at offset 44 is selected. -/
theorem locate_video_trak_first_vide :
    (∀ buf : List Nat,
      locate_video_trak buf =
        match find_first buf [moovTag] with
        | none => none
        | some (ms, msz, mh) =>
          ((iter_boxes buf (ms + mh) (ms + msz)).find? (fun b => isVideTrak buf b)).map
            (fun b => (b.start, b.size, b.header))) ∧
    locate_video_trak demo4 = some (44, 36, 8) ∧
    parse_hdlr_handler_type demo4 24 20 8 = [115, 111, 117, 110] := by
  refine ⟨?_, by decide, by decide⟩
  intro buf
  unfold locate_video_trak
  cases find_first buf [moovTag] with
  | none => rfl
  | some t =>
    obtain ⟨ms, msz, mh⟩ := t
    simp only []
    exact lvtLoop_eq_find buf _

/-- C5: when the top-level lookup finds `moov` (and `ftyp` exists) and
either `mdat` is absent or `moov` starts before `mdat`, `process_file`
reports already-fast-start and writes nothing. -/
theorem process_file_faststart_noop (data : List Nat) (ms msz mh : Nat)
    (hmoov : find_top_level_atoms data moovTag = some (ms, msz, mh))
    (hftyp : ∃ ft, find_top_level_atoms data ftypTag = some ft)
    (hmdat : find_top_level_atoms data mdatTag = none ∨
      ∃ ds dsz dh, find_top_level_atoms data mdatTag = some (ds, dsz, dh) ∧ ms < ds) :
    process_file data = .alreadyFastStart := by
  obtain ⟨⟨fs, fsz, fh⟩, hft⟩ := hftyp
  have hfast : moov_is_faststart data (ms : Int) (mdatStartOf data) = true := by
    unfold mdatStartOf
    rcases hmdat with hnone | ⟨ds, dsz, dh, hsome, hlt⟩
    · rw [hnone]
      simp only [moov_is_faststart, Bool.and_eq_true, Bool.or_eq_true, decide_eq_true_eq]
      exact ⟨Int.natCast_nonneg ms, Or.inl (by norm_num)⟩
    · rw [hsome]
      simp only [moov_is_faststart, Bool.and_eq_true, Bool.or_eq_true, decide_eq_true_eq]
      exact ⟨Int.natCast_nonneg ms, Or.inr (by exact_mod_cast hlt)⟩
  unfold process_file
  rw [hmoov, hft]
  simp only []
  rw [if_pos hfast]

/-- Witness for C5 at the already-fast-start file `demo5`. -/
theorem process_file_faststart_noop_witness :
    process_file demo5 = .alreadyFastStart :=
  process_file_faststart_noop demo5 16 12 8 (by decide) ⟨(0, 16, 8), by decide⟩
    (Or.inr ⟨28, 16, 8, by decide, by decide⟩)

/-- C8: at each level `find_first`'s walk descends only into the first
sibling bearing the wanted tag — the result does not depend on the later
siblings `post`, even when the lookup under that first sibling fails — and
when the matched box is a `meta`, the next segment is resolved 4 bytes past
the header only if those 4 bytes exist, otherwise the lookup returns
not-found. -/
theorem find_first_first_sibling_meta_rule :
    (∀ (buf : List Nat) (path : List (List Nat)),
      find_first buf path = ffWalk buf path 0 buf.length) ∧
    (∀ (buf : List Nat) (want : List Nat) (rs re : Nat) (pre post : List BoxInfo) (b : BoxInfo),
      iter_boxes buf rs re = pre ++ b :: post → (∀ x ∈ pre, x.typ ≠ want) → b.typ = want →
      ffWalk buf [want] rs re = some (b.start, b.size, b.header)) ∧
    (∀ (buf : List Nat) (want nxt : List Nat) (more : List (List Nat)) (rs re : Nat)
      (pre post : List BoxInfo) (b : BoxInfo),
      iter_boxes buf rs re = pre ++ b :: post → (∀ x ∈ pre, x.typ ≠ want) → b.typ = want →
      b.typ ≠ metaTag →
      ffWalk buf (want :: nxt :: more) rs re
        = ffWalk buf (nxt :: more) (b.start + b.header) (b.start + b.size)) ∧
    (∀ (buf : List Nat) (want nxt : List Nat) (more : List (List Nat)) (rs re : Nat)
      (pre post : List BoxInfo) (b : BoxInfo),
      iter_boxes buf rs re = pre ++ b :: post → (∀ x ∈ pre, x.typ ≠ want) → b.typ = want →
      b.typ = metaTag →
      ffWalk buf (want :: nxt :: more) rs re
        = if b.start + b.header + 4 ≤ b.start + b.size then
            ffWalk buf (nxt :: more) (b.start + b.header + 4) (b.start + b.size)
          else none) := by
  refine ⟨fun buf path => rfl, ?_, ?_, ?_⟩
  · intro buf want rs re pre post b hiter hpre hb
    have h1 : ffWalk buf [want] rs re
        = ffScan (fun a c => ffWalk buf [] a c) want ([] : List (List Nat)).isEmpty
            (iter_boxes buf rs re) := rfl
    rw [h1, hiter, ffScan_first (fun a c => ffWalk buf [] a c) want
      ([] : List (List Nat)).isEmpty pre b post hpre hb]
    rfl
  · intro buf want nxt more rs re pre post b hiter hpre hb hm
    have h1 : ffWalk buf (want :: nxt :: more) rs re
        = ffScan (fun a c => ffWalk buf (nxt :: more) a c) want (nxt :: more).isEmpty
            (iter_boxes buf rs re) := rfl
    rw [h1, hiter, ffScan_first (fun a c => ffWalk buf (nxt :: more) a c) want
      (nxt :: more).isEmpty pre b post hpre hb]
    simp only [List.isEmpty_cons, Bool.false_eq_true, if_false]
    rw [if_neg hm]
  · intro buf want nxt more rs re pre post b hiter hpre hb hm
    have h1 : ffWalk buf (want :: nxt :: more) rs re
        = ffScan (fun a c => ffWalk buf (nxt :: more) a c) want (nxt :: more).isEmpty
            (iter_boxes buf rs re) := rfl
    rw [h1, hiter, ffScan_first (fun a c => ffWalk buf (nxt :: more) a c) want
      (nxt :: more).isEmpty pre b post hpre hb]
    simp only [List.isEmpty_cons, Bool.false_eq_true, if_false]
    rw [if_pos hm]

/-- Witness for C8 on `demo8`: the walk descends into the first `moov`
(which contains no `trak`), so the whole lookup fails even though the second
`moov` does contain a `trak`. -/
theorem find_first_first_sibling_meta_rule_witness :
    ffWalk demo8 [moovTag, trakTag] 0 32 = ffWalk demo8 [trakTag] 8 12 ∧
    ffWalk demo8 [moovTag, trakTag] 0 32 = none ∧
    ffWalk demo8 [trakTag] 20 32 = some (20, 12, 8) :=
  ⟨find_first_first_sibling_meta_rule.2.2.1 demo8 moovTag trakTag [] 0 32 []
      [⟨moovTag, 12, 20, 8⟩] ⟨moovTag, 0, 12, 8⟩ (by decide)
      (fun x hx => absurd hx (List.not_mem_nil x)) rfl (by decide),
   by decide, by decide⟩

/-- C9: `find_top_level_atoms` maps a tag to the last top-level box bearing
it (the dict write in the loop overwrites earlier entries); on the concrete
`demo9` with two top-level `moov` boxes, the lookup returns the later one at
offset 44 while `find_first` returns the earlier one at 16, and
`process_file` relocates and offsets the later one. -/
theorem find_top_level_atoms_last_wins :
    (∀ (buf : List Nat) (tag : List Nat),
      find_top_level_atoms buf tag =
        match ((iter_boxes buf 0 buf.length).filter (fun b => b.typ = tag)).getLast? with
        | some b => some (b.start, b.size, b.header)
        | none => none) ∧
    find_top_level_atoms demo9 moovTag = some (44, 28, 8) ∧
    find_first demo9 [moovTag] = some (16, 12, 8) ∧
    process_file demo9 = .wrote demo9out := by
  refine ⟨?_, by decide, by decide, ?_⟩
  · intro buf tag
    exact foldl_last_wins tag (iter_boxes buf 0 buf.length) none
  · show process_file demo9 = ProcResult.wrote demo9out
    rfl

end MP4
